import Mathlib

/-
Verification of the DAZ asset normaliser (normalize-daz.py) against its
natural-language specification.

The program manipulates directory trees on disk.  We shallowly embed the
filesystem state as a finitely branching tree of named entries.  A regular
file carries no payload; an archive file additionally records the tree its
decoder would produce (constructor archFile), or the error message and the
partially written entries its decoder raises with (constructor badFile).
A directory carries its child entries.  Python dict-free directory listings
are modelled as lists of entries; real directories have pairwise distinct
child names, captured by the wf predicates below.

Collision semantics of the copy and extraction primitives: shutil.copy2 and
zipfile overwrite an existing file with a file, and copytree with
dirs_exist_ok merges a directory into an existing directory.  Writing a file
over a directory or a directory over a file raises in the libraries, leaving
the existing entry in place; we model that case as keeping the old entry.
-/

inductive Entry where
  | plainFile (name : String)
  | archFile (name : String) (contents : List Entry)
  | badFile (name : String) (msg : String) (written : List Entry)
  | dir (name : String) (children : List Entry)

/-- Name of an entry, the last path component. -/
def ename : Entry → String
  | .plainFile n => n
  | .archFile n _ => n
  | .badFile n _ _ => n
  | .dir n _ => n

/-- True for directory entries, mirroring Path.is_dir. -/
def isDirE : Entry → Bool
  | .dir _ _ => true
  | _ => false

mutual

def esize : Entry → Nat
  | .plainFile _ => 1
  | .archFile _ c => 1 + lsize c
  | .badFile _ _ w => 1 + lsize w
  | .dir _ c => 1 + lsize c

def lsize : List Entry → Nat
  | [] => 0
  | e :: es => esize e + lsize es

end

/-
Suffix of a file name, mirroring Python pathlib: the substring from the last
dot, provided that dot is neither the first nor the last character of the
name; otherwise the empty string.
-/

/-- Index of the last occurrence of ch in cs, if any. -/
def lastIdxOf (ch : Char) : List Char → Option Nat
  | [] => none
  | c :: cs =>
    match lastIdxOf ch cs with
    | some i => some (i + 1)
    | none => if c = ch then some 0 else none

/-- Python Path.suffix on a file name. -/
def suffixOfName (s : String) : String :=
  let cs := s.data
  match lastIdxOf '.' cs with
  | some i => if 0 < i ∧ i < cs.length - 1 then String.mk (cs.drop i) else ""
  | none => ""

/-
Configuration sets, from the source head.
-/

def DAZ_FOLDERS : List String :=
  ["data", "People", "Props", "Runtime", "Environments", "Scenes"]

def PROMO_EXTS : List String :=
  [".jpg", ".jpeg", ".png", ".gif", ".pdf", ".txt", ".doc", ".docx", ".rtf"]

def ARCHIVE_EXTS : List String := [".zip", ".rar", ".7z"]

/-- Python str.lower, character by character (names here are ASCII). -/
def lowerStr (s : String) : String := String.mk (s.data.map Char.toLower)

/-- Lowercased suffix of an entry name, as the source computes it. -/
def lowSuffix (n : String) : String := lowerStr (suffixOfName n)

/-- True when the entry name has a recognised archive extension. -/
def isArchiveName (n : String) : Bool := (ARCHIVE_EXTS).contains (lowSuffix n)

/-
Directory merge primitives.  mergeIntoL d s copies the entries of s into the
listing d one by one: a fresh name is appended, a name collision combines the
two entries with combineE (directories merge recursively, a file overwrites a
file, and a kind clash keeps the existing entry, since the copying libraries
raise there and leave the destination in place).
-/

/-- First entry with the given name, mirroring a filesystem lookup. -/
def lookupName (n : String) : List Entry → Option Entry
  | [] => none
  | e :: es => if ename e = n then some e else lookupName n es

/-- Replace the first entry with the given name. -/
def replaceFirst (n : String) (r : Entry) : List Entry → List Entry
  | [] => []
  | e :: es => if ename e = n then r :: es else e :: replaceFirst n r es

mutual

def combineE : Entry → Entry → Entry
  | Entry.dir n c, Entry.dir _ c' => Entry.dir n (mergeIntoL c c')
  | old, new => if isDirE old ∨ isDirE new then old else new

def mergeIntoL : List Entry → List Entry → List Entry
  | d, [] => d
  | d, x :: s =>
    mergeIntoL
      (match lookupName (ename x) d with
       | none => d ++ [x]
       | some m => replaceFirst (ename x) (combineE m x) d) s

end

/-- One copy or upsert step of mergeIntoL. -/
def upsertE (d : List Entry) (x : Entry) : List Entry :=
  match lookupName (ename x) d with
  | none => d ++ [x]
  | some m => replaceFirst (ename x) (combineE m x) d

/-- Successive merges of a list of source listings into one destination. -/
def applyList (d : List Entry) : List (List Entry) → List Entry
  | [] => d
  | s :: rest => applyList (mergeIntoL d s) rest

/-
Wellformedness: a real directory never holds two children of the same name.
-/

mutual

def wfE : Entry → Bool
  | .plainFile _ => true
  | .archFile _ c => wfL c
  | .badFile _ _ w => wfL w
  | .dir _ c => wfL c

def wfL : List Entry → Bool
  | [] => true
  | e :: es => wfE e && (lookupName (ename e) es).isNone && wfL es

end

/-
Path addressed operations on a tree.  A path is the list of names from the
scratch root down to an entry.
-/

/-- Entry at a path, none when the path or an intermediate directory is missing. -/
def getAt : List Entry → List String → Option Entry
  | _, [] => none
  | t, n :: rest =>
    match rest with
    | [] => lookupName n t
    | _ =>
      match lookupName n t with
      | some (Entry.dir _ cs) => getAt cs rest
      | _ => none

/-- Unlink with missing_ok: remove the first entry of the given name provided
it is a file; a directory makes unlink raise, which the caller swallows, so
the listing is unchanged. -/
def removeFileNamed (n : String) : List Entry → List Entry
  | [] => []
  | e :: es =>
    if ename e = n then (if isDirE e then e :: es else es)
    else e :: removeFileNamed n es

/-- Unlink the file at a path; invalid paths leave the tree unchanged. -/
def removeAtPath (t : List Entry) : List String → List Entry
  | [] => t
  | n :: rest =>
    match rest with
    | [] => removeFileNamed n t
    | _ =>
      match lookupName n t with
      | some (Entry.dir m cs) => replaceFirst n (Entry.dir m (removeAtPath cs rest)) t
      | _ => t

/-- Children of the directory at a path, the root listing for the empty path. -/
def childrenAt : List Entry → List String → Option (List Entry)
  | t, [] => some t
  | t, n :: rest =>
    match lookupName n t with
    | some (Entry.dir _ cs) => childrenAt cs rest
    | _ => none

/-
Recursive directory walk in the order CPython pathlib rglob uses: the
directories are enumerated root first, then each subdirectory recursively
before its next sibling, and the walked paths are the listed children of
each enumerated directory in turn.
-/

mutual

def dirsPre : Entry → List (List String × List Entry)
  | Entry.dir n cs => ([n], cs) :: (dirsPreL cs).map (fun pc => (n :: pc.1, pc.2))
  | _ => []

def dirsPreL : List Entry → List (List String × List Entry)
  | [] => []
  | e :: es => dirsPre e ++ dirsPreL es

end

/-- Every directory of the tree with its children, preorder, root first. -/
def preDirs (t : List Entry) : List (List String × List Entry) :=
  ([], t) :: dirsPreL t

/-- Paths yielded by root.rglob("*") with the entries they denote. -/
def rglobPaths (t : List Entry) : List (List String × Entry) :=
  (preDirs t).flatMap (fun pc => pc.2.map (fun e => (pc.1 ++ [ename e], e)))

/-
Archive extraction (source lines 20-38).  The format is dispatched on the
lowercase suffix; an unsupported suffix is skipped with a warning and any
decoder error is caught and logged, the destination keeping whatever was
written before the failure.
-/

inductive LogEvent where
  | skipUnsupported (path : String)
  | failExtract (path : String) (msg : String)
deriving DecidableEq

/-- Outcome of handing an entry to one of the three decoder libraries. -/
def decodeInto (a : Entry) (dest : List Entry) : List Entry × List LogEvent :=
  match a with
  | .archFile _ c => (mergeIntoL dest c, [])
  | .badFile n m w => (mergeIntoL dest w, [LogEvent.failExtract n m])
  | .plainFile n => (dest, [LogEvent.failExtract n "not an archive"])
  | .dir n _ => (dest, [LogEvent.failExtract n "is a directory"])

def extract_archive (a : Entry) (dest : List Entry) : List Entry × List LogEvent :=
  let ext := lowSuffix (ename a)
  if ext = ".zip" then decodeInto a dest
  else if ext = ".rar" then decodeInto a dest
  else if ext = ".7z" then decodeInto a dest
  else (dest, [LogEvent.skipUnsupported (ename a)])

/-
Recursive unpacker (source lines 39-61).  Each pass lists every path whose
lowercase suffix is an archive extension, then for each listed path extracts
the entry there into its parent directory and unlinks it, all failures being
swallowed.  The loop repeats until a scan finds nothing; the Nat result is
the final value of the iteration counter.  The structural fuel argument
makes nontermination observable as a none result.
-/

/-- Paths matched by one scanning pass, files and directories alike. -/
def scanArchives (t : List Entry) : List (List String) :=
  (rglobPaths t).filterMap
    (fun pe => if isArchiveName (ename pe.2) then some pe.1 else none)

/-- Extract the entry at a path into its parent directory. -/
def stepExtract (t : List Entry) : List String → List Entry
  | [] => t
  | n :: rest =>
    match rest with
    | [] =>
      match lookupName n t with
      | some a => (extract_archive a t).1
      | none => t
    | _ =>
      match lookupName n t with
      | some (Entry.dir m cs) => replaceFirst n (Entry.dir m (stepExtract cs rest)) t
      | _ => t

/-- Handle one scanned path: extract in place, then unlink it. -/
def stepP (t : List Entry) (p : List String) : List Entry :=
  removeAtPath (stepExtract t p) p

/-- One pass over the archives found at the start of the pass. -/
def doPass (t : List Entry) : List Entry :=
  (scanArchives t).foldl stepP t

def extract_all_archives_recursively : Nat → Nat → List Entry → Option (List Entry × Nat)
  | 0, _, _ => none
  | fuel + 1, iteration, t =>
    if scanArchives t = [] then some (t, iteration)
    else extract_all_archives_recursively fuel (iteration + 1) (doPass t)

/-
DAZ root finder (source lines 66-88).
-/

def dazLower : List String := DAZ_FOLDERS.map lowerStr

/-- Lowercased names of the immediate subdirectories of a listing. -/
def dirNamesLower (t : List Entry) : List String :=
  t.filterMap (fun e => if isDirE e then some (lowerStr (ename e)) else none)

/-- True when the listing's immediate subdirectory names meet the DAZ set. -/
def hasDazChild (t : List Entry) : Bool :=
  (dirNamesLower t).any (fun m => dazLower.contains m)

def find_daz_root (t : List Entry) : Option (List String) :=
  if hasDazChild t then some []
  else
    (rglobPaths t).findSome? (fun pe =>
      match pe.2 with
      | Entry.dir _ cs => if hasDazChild cs then some pe.1 else none
      | _ => none)

/-
Selective copier (source lines 95-104).
-/

def copy_daz_root (source_root : List Entry) (output_dir : List Entry)
    (include_promos : Bool) : List Entry :=
  source_root.foldl
    (fun out item =>
      if !include_promos && PROMO_EXTS.contains (lowSuffix (ename item)) then out
      else upsertE out item)
    output_dir

/-
Orchestrator (source lines 109-222).  process_archive runs the
extract, unpack, locate, copy, finalize sequence three times in a row on
fresh scratch directories; the second and third runs add fallback root
searches.  The model returns the output directory listing and the list of
scratch trees retained when keep_temp is set.
-/

/-- Python Path.stem on a file name. -/
def stemOfName (s : String) : String :=
  let cs := s.data
  match lastIdxOf '.' cs with
  | some i => if 0 < i ∧ i < cs.length - 1 then String.mk (cs.take i) else s
  | none => s

/-- Children of the named child directory, empty when absent. -/
def childListOf (out : List Entry) (n : String) : List Entry :=
  match lookupName n out with
  | some (Entry.dir _ cs) => cs
  | _ => []

/-- Mkdir with parents and exist_ok followed by installing the directory with
the given children; a file of that name makes mkdir raise, keeping the
listing unchanged. -/
def putDirChild (out : List Entry) (n : String) (cs : List Entry) : List Entry :=
  match lookupName n out with
  | none => out ++ [Entry.dir n cs]
  | some (Entry.dir _ _) => replaceFirst n (Entry.dir n cs) out
  | some _ => out

/-- Copy the located root into the output: in merge mode into the shared
Content directory, otherwise into a per-archive normalized directory which
is then repackaged as a flat zip next to it. -/
def copyFinalize (out items : List Entry) (ip mg : Bool) (stem : String) : List Entry :=
  if mg then
    putDirChild out "Content" (copy_daz_root items (childListOf out "Content") ip)
  else
    let dn := stem ++ "_normalized"
    let cs := copy_daz_root items (childListOf out dn) ip
    upsertE (putDirChild out dn cs) (Entry.archFile (dn ++ ".zip") cs)

/-- Fallback of the second block: walk every directory under the scratch tree
and run the root finder from each. -/
def fallbackRglob (t : List Entry) : Option (List String) :=
  (rglobPaths t).findSome? (fun pe =>
    match pe.2 with
    | Entry.dir _ cs => (find_daz_root cs).map (fun q => pe.1 ++ q)
    | _ => none)

/-- Fallback of the third block: run the root finder from each immediate
subdirectory of the scratch tree. -/
def fallbackTop (t : List Entry) : Option (List String) :=
  t.findSome? (fun e =>
    match e with
    | Entry.dir n cs => (find_daz_root cs).map (fun q => n :: q)
    | _ => none)

def process_archive (fuel : Nat) (a : Entry) (ip kt mg : Bool) (out : List Entry) :
    Option (List Entry × List (List Entry)) :=
  let stem := stemOfName (ename a)
  let t1 := (extract_archive a []).1
  match extract_all_archives_recursively fuel 0 t1 with
  | none => none
  | some (u1, _) =>
    match find_daz_root u1 with
    | none => some (out, if kt then [u1] else [])
    | some r1 =>
      let out1 := copyFinalize out ((childrenAt u1 r1).getD []) ip mg stem
      let ret1 := if kt then [u1] else []
      let t2 := (extract_archive a []).1
      match extract_all_archives_recursively fuel 0 t2 with
      | none => none
      | some (u2, _) =>
        match (match find_daz_root u2 with
               | some r => some r
               | none => fallbackRglob u2) with
        | none => some (out1, ret1 ++ if kt then [u2] else [])
        | some r2 =>
          let out2 := copyFinalize out1 ((childrenAt u2 r2).getD []) ip mg stem
          let ret2 := ret1 ++ (if kt then [u2] else [])
          let t3 := (extract_archive a []).1
          match extract_all_archives_recursively fuel 0 t3 with
          | none => none
          | some (u3, _) =>
            match (match find_daz_root u3 with
                   | some r => some r
                   | none => fallbackTop u3) with
            | none => some (out2, ret2 ++ if kt then [u3] else [])
            | some r3 =>
              some (copyFinalize out2 ((childrenAt u3 r3).getD []) ip mg stem,
                    ret2 ++ if kt then [u3] else [])

/-- Modelled from the spec, section 4.5: the per-archive orchestrator as the
specification describes it, a single run of the sequence create scratch,
extract, unpack recursively, locate root, copy and finalize, retain or
delete the scratch directory. -/
def specOrchestrator (fuel : Nat) (a : Entry) (ip kt mg : Bool) (out : List Entry) :
    Option (List Entry × List (List Entry)) :=
  let t := (extract_archive a []).1
  match extract_all_archives_recursively fuel 0 t with
  | none => none
  | some (u, _) =>
    match find_daz_root u with
    | none => some (out, if kt then [u] else [])
    | some r =>
      some (copyFinalize out ((childrenAt u r).getD []) ip mg (stemOfName (ename a)),
            if kt then [u] else [])

/-
Batch driver (source lines 227-275).
-/

def runArchives (fuel : Nat) (ip kt mg : Bool) : List Entry → List Entry → Option (List Entry)
  | [], out => some out
  | a :: rest, out =>
    match process_archive fuel a ip kt mg out with
    | none => none
    | some (out', _) => runArchives fuel ip kt mg rest out'

/-- The main loop: scan the input directory for archive files and process
each in turn against the output directory. -/
def main_run (fuel : Nat) (input : List Entry) (out : List Entry)
    (ip kt mg : Bool) : Option (List Entry) :=
  runArchives fuel ip kt mg
    (input.filter (fun e => !isDirE e && isArchiveName (ename e))) out

/-
Auxiliary definitions used by the theorems below.
-/

/-- Children of a directory entry, empty for files. -/
def dirChildrenOf : Entry → List Entry
  | .dir _ cs => cs
  | _ => []

/-- First directory in rglob walk order whose immediate subdirectory names
meet the DAZ set; the order-first reading of the specification. -/
def firstQualifyingDir (t : List Entry) : Option (List String) :=
  ((rglobPaths t).find?
    (fun pe => isDirE pe.2 && hasDazChild (dirChildrenOf pe.2))).map Prod.fst

mutual

def hasArchDirE : Entry → Bool
  | .dir n cs => isArchiveName n || hasArchDirL cs
  | _ => false

def hasArchDirL : List Entry → Bool
  | [] => false
  | e :: es => hasArchDirE e || hasArchDirL es

end

/- Whether a tree holds a regular file (never a directory) whose name
carries an archive extension.  Directories are descended into but their own
names are ignored; this is the "zero archive files" condition stated over
entries that are files. -/
mutual

def hasArchFileE : Entry → Bool
  | .dir _ cs => hasArchFileL cs
  | e => isArchiveName (ename e)

def hasArchFileL : List Entry → Bool
  | [] => false
  | e :: es => hasArchFileE e || hasArchFileL es

end

/-- Chain of n archives, each holding the next inside a directory d. -/
def chainT : Nat → List Entry
  | 0 => [Entry.plainFile "readme"]
  | n + 1 => [Entry.archFile "a.zip" [Entry.dir "d" (chainT n)]]

/-- Tower of k nested directories named d around a listing. -/
def wrapD : Nat → List Entry → List Entry
  | 0, l => l
  | k + 1, l => [Entry.dir "d" (wrapD k l)]

/-- Path of k components d. -/
def pathD (k : Nat) : List String := List.replicate k "d"

/-- Tree whose shallowest qualifying directory is not first in walk order. -/
def c4tree : List Entry :=
  [Entry.dir "A" [Entry.dir "X" [Entry.dir "Y" [Entry.dir "People" []]]],
   Entry.dir "B" [Entry.dir "C" [Entry.dir "Runtime" []]]]

/-
Auxiliary notions for the merge idempotence development: names of a listing,
the per-name combination of optional entries performed by a merge, sizes used
as induction measures, and the child listings contributed by directory
entries.
-/

/-- Names of the entries of a listing, in order. -/
def namesOf (l : List Entry) : List String := l.map ename

/-- Per-name effect of merging: a missing source name keeps the destination
entry, a present one combines with it. -/
def ocomb (x y : Option Entry) : Option Entry :=
  match y with
  | none => x
  | some e =>
    some (match x with
          | none => e
          | some a => combineE a e)

/-- Iterated per-name combination along a list of source entries. -/
def ofold (x : Option Entry) (ys : List (Option Entry)) : Option Entry :=
  ys.foldl ocomb x

def wfO : Option Entry → Bool
  | none => true
  | some e => wfE e

def osize : Option Entry → Nat
  | none => 0
  | some e => esize e

def olsize : List (Option Entry) → Nat
  | [] => 0
  | y :: ys => 1 + osize y + olsize ys

def msize : List (List Entry) → Nat
  | [] => 0
  | s :: S => 1 + lsize s + msize S

/-- Child listings of the directory entries in a list of optional entries. -/
def dirOptChildren : List (Option Entry) → List (List Entry)
  | [] => []
  | some (Entry.dir _ cs) :: ys => cs :: dirOptChildren ys
  | some (Entry.plainFile _) :: ys => dirOptChildren ys
  | some (Entry.archFile _ _) :: ys => dirOptChildren ys
  | some (Entry.badFile _ _ _) :: ys => dirOptChildren ys
  | none :: ys => dirOptChildren ys

/-- Predicate for the entries the copier keeps. -/
def keepP (ip : Bool) (e : Entry) : Bool :=
  ip || !(PROMO_EXTS.contains (lowSuffix (ename e)))

/-
Basic facts and evaluation checks.
-/

theorem esize_pos : ∀ e : Entry, 0 < esize e
  | .plainFile _ => by simp [esize]
  | .archFile _ _ => by simp [esize]
  | .badFile _ _ _ => by simp [esize]
  | .dir _ _ => by simp [esize]

theorem lsize_cons (e : Entry) (l : List Entry) :
    lsize (e :: l) = esize e + lsize l := rfl

theorem lsize_append : ∀ l₁ l₂ : List Entry, lsize (l₁ ++ l₂) = lsize l₁ + lsize l₂
  | [], _ => by simp [lsize]
  | e :: es, l₂ => by simp [lsize, lsize_append es l₂]; omega

example : suffixOfName "a.ZIP" = ".ZIP" := by decide
example : suffixOfName "archive.tar.rar" = ".rar" := by decide
example : suffixOfName "noext" = "" := by decide
example : suffixOfName ".hidden" = "" := by decide
example : suffixOfName "dot.at.end." = "" := by decide

example : isArchiveName "a.ZIP" = true := by decide
example : isArchiveName "a.7z" = true := by decide
example : isArchiveName "a.tar" = false := by decide

theorem mergeIntoL_nil (d : List Entry) : mergeIntoL d [] = d := rfl

theorem mergeIntoL_cons (d : List Entry) (x : Entry) (s : List Entry) :
    mergeIntoL d (x :: s) = mergeIntoL (upsertE d x) s := rfl

theorem wfL_cons (e : Entry) (es : List Entry) :
    wfL (e :: es) = (wfE e && (lookupName (ename e) es).isNone && wfL es) := rfl

example : mergeIntoL [Entry.dir "a" [Entry.plainFile "x"]] [Entry.dir "a" [Entry.plainFile "y"]]
    = [Entry.dir "a" [Entry.plainFile "x", Entry.plainFile "y"]] := rfl

example : mergeIntoL [Entry.dir "a" []] [Entry.plainFile "a"] = [Entry.dir "a" []] := rfl

example : mergeIntoL [Entry.plainFile "a"] [Entry.plainFile "a", Entry.plainFile "b"]
    = [Entry.plainFile "a", Entry.plainFile "b"] := rfl

example : stemOfName "pack.zip" = "pack" := by decide


theorem isArchiveName_iff (n : String) :
    isArchiveName n = true ↔
      (lowSuffix n = ".zip" ∨ lowSuffix n = ".rar" ∨ lowSuffix n = ".7z") := by
  simp only [isArchiveName, ARCHIVE_EXTS, List.contains, List.elem]
  rcases eq_or_ne (lowSuffix n) ".zip" with h1 | h1 <;>
    rcases eq_or_ne (lowSuffix n) ".rar" with h2 | h2 <;>
      rcases eq_or_ne (lowSuffix n) ".7z" with h3 | h3 <;>
        simp [h1, h2, h3, beq_eq_false_iff_ne.mpr, beq_iff_eq]

theorem isArchiveName_false (n : String) (h : isArchiveName n = false) :
    lowSuffix n ≠ ".zip" ∧ lowSuffix n ≠ ".rar" ∧ lowSuffix n ≠ ".7z" := by
  have := (isArchiveName_iff n).2
  rcases eq_or_ne (lowSuffix n) ".zip" with h1 | h1
  · simp [this (Or.inl h1)] at h
  rcases eq_or_ne (lowSuffix n) ".rar" with h2 | h2
  · simp [this (Or.inr (Or.inl h2))] at h
  rcases eq_or_ne (lowSuffix n) ".7z" with h3 | h3
  · simp [this (Or.inr (Or.inr h3))] at h
  exact ⟨h1, h2, h3⟩

theorem extract_archive_supported (a : Entry) (dest : List Entry)
    (h : isArchiveName (ename a) = true) :
    extract_archive a dest = decodeInto a dest := by
  rcases (isArchiveName_iff _).1 h with h' | h' | h' <;> simp [extract_archive, h']

/-- C8: an unsupported extension makes extract a warning-emitting no-op that
returns normally, and every decode failure is caught, logged with the failing
path and the underlying message, leaves whatever was already written in
place, and is a no-op from the caller's point of view. -/
theorem C8_extract_error_handling :
    (∀ (a : Entry) (dest : List Entry), isArchiveName (ename a) = false →
        extract_archive a dest = (dest, [LogEvent.skipUnsupported (ename a)])) ∧
    (∀ (n m : String) (w dest : List Entry), isArchiveName n = true →
        extract_archive (Entry.badFile n m w) dest
          = (mergeIntoL dest w, [LogEvent.failExtract n m])) ∧
    (∀ (n : String) (dest : List Entry), isArchiveName n = true →
        extract_archive (Entry.plainFile n) dest
          = (dest, [LogEvent.failExtract n "not an archive"])) ∧
    (∀ (n : String) (cs dest : List Entry), isArchiveName n = true →
        extract_archive (Entry.dir n cs) dest
          = (dest, [LogEvent.failExtract n "is a directory"])) := by
  refine ⟨fun a dest h => ?_, fun n m w dest h => ?_, fun n dest h => ?_,
    fun n cs dest h => ?_⟩
  · obtain ⟨h1, h2, h3⟩ := isArchiveName_false _ h
    simp [extract_archive, h1, h2, h3]
  · rw [extract_archive_supported (Entry.badFile n m w) dest h]; rfl
  · rw [extract_archive_supported (Entry.plainFile n) dest h]; rfl
  · rw [extract_archive_supported (Entry.dir n cs) dest h]; rfl

theorem C8_witness :
    extract_archive (Entry.plainFile "doc.tar") [] = ([], [LogEvent.skipUnsupported "doc.tar"]) ∧
    extract_archive (Entry.badFile "b.zip" "boom" [Entry.plainFile "p"]) [Entry.plainFile "q"]
      = (mergeIntoL [Entry.plainFile "q"] [Entry.plainFile "p"],
         [LogEvent.failExtract "b.zip" "boom"]) ∧
    extract_archive (Entry.plainFile "c.rar") [] = ([], [LogEvent.failExtract "c.rar" "not an archive"]) ∧
    extract_archive (Entry.dir "d.7z" []) [] = ([], [LogEvent.failExtract "d.7z" "is a directory"]) :=
  ⟨C8_extract_error_handling.1 (Entry.plainFile "doc.tar") [] rfl,
   C8_extract_error_handling.2.1 "b.zip" "boom" [Entry.plainFile "p"] [Entry.plainFile "q"] rfl,
   C8_extract_error_handling.2.2.1 "c.rar" [] rfl,
   C8_extract_error_handling.2.2.2 "d.7z" [] [] rfl⟩

/-- C7 counterexample: the tree holding one empty directory named a.zip
contains zero files with an archive extension, yet the unpacker does not
perform a single scanning pass and terminate: the per-pass scan matches the
directory by suffix, so the scan is nonempty and with fuel for four passes
the loop has still not terminated, instead of returning the unchanged tree
after one pass. -/
theorem C7_counterexample :
    hasArchFileL [Entry.dir "a.zip" []] = false ∧
    scanArchives [Entry.dir "a.zip" []] ≠ [] ∧
    extract_all_archives_recursively 4 0 [Entry.dir "a.zip" []] = none := by
  exact ⟨rfl, by decide, rfl⟩

/-- C7 amended: for every tree containing zero archive-suffixed paths of any
kind — no regular file and also no directory whose name carries an archive
extension — the unpacker terminates after the single initial scan, with zero
extraction passes and the tree unchanged. -/
theorem C7_amended_no_archive_paths_one_scan (t : List Entry) (fuel : Nat)
    (h : scanArchives t = []) :
    extract_all_archives_recursively (fuel + 1) 0 t = some (t, 0) := by
  simp [extract_all_archives_recursively, h]

theorem C7_witness :
    scanArchives [Entry.dir "Runtime" [Entry.plainFile "x.obj"]] = [] ∧
    extract_all_archives_recursively 3 0 [Entry.dir "Runtime" [Entry.plainFile "x.obj"]]
      = some ([Entry.dir "Runtime" [Entry.plainFile "x.obj"]], 0) :=
  ⟨rfl, C7_amended_no_archive_paths_one_scan [Entry.dir "Runtime" [Entry.plainFile "x.obj"]] 2 rfl⟩

/-- C2 counterexample: copy_daz_root tests only the suffix of an entry name,
so with promo inclusion disabled a directory named ad.jpg is skipped, while
the claim says every immediate directory is copied regardless of its name. -/
theorem C2_counterexample :
    isDirE (Entry.dir "ad.jpg" []) = true ∧
    copy_daz_root [Entry.dir "ad.jpg" [], Entry.dir "Runtime" []] [] false
      = [Entry.dir "Runtime" []] :=
  ⟨rfl, rfl⟩

/-- C2 (amended): with includePromos false an immediate entry is skipped if
and only if its lowercased extension is in the promotional set, whether it is
a file or a directory; with includePromos true every immediate entry is
copied. -/
theorem C2_amended_suffix_filter :
    (∀ (src out : List Entry) (ip : Bool),
        copy_daz_root src out ip
          = mergeIntoL out
              (src.filter (fun e => ip || !(PROMO_EXTS.contains (lowSuffix (ename e)))))) ∧
    (∀ src out : List Entry, copy_daz_root src out true = mergeIntoL out src) := by
  have main : ∀ (src out : List Entry) (ip : Bool),
      copy_daz_root src out ip
        = mergeIntoL out
            (src.filter (fun e => ip || !(PROMO_EXTS.contains (lowSuffix (ename e))))) := by
    intro src
    induction src with
    | nil => intro out ip; rfl
    | cons x s ih =>
      intro out ip
      by_cases h : (!ip && PROMO_EXTS.contains (lowSuffix (ename x))) = true
      · have hk : (ip || !(PROMO_EXTS.contains (lowSuffix (ename x)))) = false := by
          revert h; cases ip <;> simp
        simp only [copy_daz_root, List.foldl_cons, h, if_pos rfl, List.filter_cons, hk,
          Bool.false_eq_true, if_neg (Bool.false_ne_true)]
        exact ih out ip
      · have hk : (ip || !(PROMO_EXTS.contains (lowSuffix (ename x)))) = true := by
          revert h; cases ip <;> simp
        have h' : (!ip && PROMO_EXTS.contains (lowSuffix (ename x))) = false := by
          revert h; cases ip <;> simp
        simp only [copy_daz_root, List.foldl_cons, h', List.filter_cons, hk, if_pos rfl]
        simpa [copy_daz_root, mergeIntoL_cons] using ih (upsertE out x) ip
  refine ⟨main, fun src out => ?_⟩
  simpa using main src out true

/-- C1: evaluation at a failing input for the claimed single-sequence
equivalence.  On an archive whose root is found, with keep_temp set, the
source orchestrator runs the extract, unpack, locate, copy, finalize
sequence three times and retains three scratch directories, whereas one run
of the sequence of specification section 4.5 retains exactly one; the final
output-directory state itself agrees. -/
theorem C1_triplicated_orchestration :
    (process_archive 4 (Entry.archFile "pack.zip" [Entry.dir "Runtime" [Entry.plainFile "x.obj"]])
        false true true []).map (fun r => r.2.length) = some 3 ∧
    (specOrchestrator 4 (Entry.archFile "pack.zip" [Entry.dir "Runtime" [Entry.plainFile "x.obj"]])
        false true true []).map (fun r => r.2.length) = some 1 ∧
    (process_archive 4 (Entry.archFile "pack.zip" [Entry.dir "Runtime" [Entry.plainFile "x.obj"]])
        false true true []).map Prod.fst
      = (specOrchestrator 4 (Entry.archFile "pack.zip" [Entry.dir "Runtime" [Entry.plainFile "x.obj"]])
        false true true []).map Prod.fst ∧
    (3 : Nat) ≠ 1 :=
  ⟨rfl, rfl, rfl, by decide⟩

/-- C9: when the unpacked scratch tree of an archive has no recognisable
content root, processing it returns the output directory unchanged, keeping
or deleting only the scratch tree, and the batch behaves on the remaining
archives exactly as if this archive were absent. -/
theorem C9_no_root_no_output (fuel : Nat) (a : Entry) (ip kt mg : Bool)
    (out rest : List Entry) (u : List Entry) (it : Nat)
    (hu : extract_all_archives_recursively fuel 0 ((extract_archive a []).1) = some (u, it))
    (hn : find_daz_root u = none) :
    process_archive fuel a ip kt mg out = some (out, if kt then [u] else []) ∧
    runArchives fuel ip kt mg (a :: rest) out = runArchives fuel ip kt mg rest out := by
  have h1 : process_archive fuel a ip kt mg out = some (out, if kt then [u] else []) := by
    simp [process_archive, hu, hn]
  exact ⟨h1, by simp [runArchives, h1]⟩

theorem C9_witness :
    process_archive 3 (Entry.archFile "empty.zip" [Entry.plainFile "readme.md"])
        false false true [Entry.dir "Content" []]
      = some ([Entry.dir "Content" []], []) ∧
    runArchives 3 false false true
        [Entry.archFile "empty.zip" [Entry.plainFile "readme.md"],
         Entry.archFile "pack.zip" [Entry.dir "Runtime" [Entry.plainFile "x.obj"]]]
        [Entry.dir "Content" []]
      = runArchives 3 false false true
        [Entry.archFile "pack.zip" [Entry.dir "Runtime" [Entry.plainFile "x.obj"]]]
        [Entry.dir "Content" []] :=
  C9_no_root_no_output 3 (Entry.archFile "empty.zip" [Entry.plainFile "readme.md"])
    false false true [Entry.dir "Content" []]
    [Entry.archFile "pack.zip" [Entry.dir "Runtime" [Entry.plainFile "x.obj"]]]
    [Entry.plainFile "readme.md"] 0 rfl rfl

theorem head_mem_dirsPreL (l : List Entry) (n : String) (cs : List Entry)
    (h : Entry.dir n cs ∈ l) : ([n], cs) ∈ dirsPreL l := by
  induction l with
  | nil => cases h
  | cons e es ih =>
    rcases List.mem_cons.1 h with rfl | h'
    · simp [dirsPreL, dirsPre]
    · simp only [dirsPreL, List.mem_append]
      exact Or.inr (ih h')

mutual

theorem dirsPre_descend : ∀ (e : Entry) (q : List String) (d : List Entry),
    (q, d) ∈ dirsPre e → ∀ (n : String) (cs : List Entry),
    Entry.dir n cs ∈ d → (q ++ [n], cs) ∈ dirsPre e
  | Entry.plainFile _, _, _, h => by cases h
  | Entry.archFile _ _, _, _, h => by cases h
  | Entry.badFile _ _ _, _, _, h => by cases h
  | Entry.dir n0 c0, q, d, h => by
    intro n cs hmem
    simp only [dirsPre, List.mem_cons, List.mem_map] at h
    rcases h with h | ⟨pc, hpc, hEq⟩
    · obtain ⟨rfl, rfl⟩ := Prod.mk.injEq _ _ _ _ ▸ h
      have := head_mem_dirsPreL d n cs hmem
      simp only [dirsPre, List.mem_cons, List.mem_map]
      exact Or.inr ⟨([n], cs), this, rfl⟩
    · obtain ⟨rfl, rfl⟩ := Prod.mk.injEq _ _ _ _ ▸ hEq.symm
      have := dirsPreL_descend c0 pc.1 pc.2 hpc n cs hmem
      simp only [dirsPre, List.mem_cons, List.mem_map]
      exact Or.inr ⟨(pc.1 ++ [n], cs), this, by simp⟩

theorem dirsPreL_descend : ∀ (l : List Entry) (q : List String) (d : List Entry),
    (q, d) ∈ dirsPreL l → ∀ (n : String) (cs : List Entry),
    Entry.dir n cs ∈ d → (q ++ [n], cs) ∈ dirsPreL l
  | [], _, _, h => by cases h
  | e :: es, q, d, h => by
    intro n cs hmem
    simp only [dirsPreL, List.mem_append] at h ⊢
    rcases h with h | h
    · exact Or.inl (dirsPre_descend e q d h n cs hmem)
    · exact Or.inr (dirsPreL_descend es q d h n cs hmem)

end

theorem preDirs_descend (t : List Entry) (pc : List String × List Entry)
    (hpc : pc ∈ preDirs t) (n : String) (cs : List Entry)
    (hmem : Entry.dir n cs ∈ pc.2) : (pc.1 ++ [n], cs) ∈ preDirs t := by
  simp only [preDirs, List.mem_cons] at hpc ⊢
  rcases hpc with rfl | hpc
  · exact Or.inr (head_mem_dirsPreL t n cs hmem)
  · exact Or.inr (dirsPreL_descend t pc.1 pc.2 hpc n cs hmem)

theorem mem_rglobPaths (t : List Entry) (p : List String) (x : Entry)
    (h : (p, x) ∈ rglobPaths t) :
    ∃ pc ∈ preDirs t, x ∈ pc.2 ∧ p = pc.1 ++ [ename x] := by
  simp only [rglobPaths, List.mem_flatMap, List.mem_map] at h
  obtain ⟨pc, hpc, e, he, hEq⟩ := h
  obtain ⟨rfl, rfl⟩ := Prod.mk.injEq _ _ _ _ ▸ hEq.symm
  exact ⟨pc, hpc, he, rfl⟩

/-- C5: the locator returns the root when its own subdirectory names match,
finds the parent of a nested DAZ folder otherwise, and reports not found
when no directory of the tree qualifies. -/
theorem C5_locator_cases :
    (∀ t : List Entry, hasDazChild t = true → find_daz_root t = some []) ∧
    find_daz_root [Entry.dir "a" [Entry.dir "b" [Entry.dir "People" []]]] = some ["a", "b"] ∧
    (∀ t : List Entry, (∀ pc ∈ preDirs t, hasDazChild pc.2 = false) →
      find_daz_root t = none) := by
  refine ⟨fun t h => by simp [find_daz_root, h], rfl, fun t h => ?_⟩
  have hroot : hasDazChild t = false := h ([], t) (by simp [preDirs])
  simp only [find_daz_root, hroot, Bool.false_eq_true, if_false]
  rw [List.findSome?_eq_none_iff]
  intro pe hpe
  obtain ⟨p, x⟩ := pe
  cases x with
  | plainFile n => rfl
  | archFile n c => rfl
  | badFile n m w => rfl
  | dir n cs =>
    obtain ⟨pc, hpc, hmem, rfl⟩ := mem_rglobPaths t p (Entry.dir n cs) hpe
    have hdes := preDirs_descend t pc hpc n cs hmem
    have hfalse := h _ hdes
    simp only [hfalse, Bool.false_eq_true, if_false]

theorem C5_witness :
    find_daz_root [Entry.dir "Runtime" []] = some [] ∧
    find_daz_root [Entry.dir "zzz" [Entry.plainFile "f"]] = none :=
  ⟨C5_locator_cases.1 [Entry.dir "Runtime" []] rfl,
   C5_locator_cases.2.2 [Entry.dir "zzz" [Entry.plainFile "f"]] (by decide)⟩

/-- C4 counterexample: in this tree the root does not match, directory B/C at
depth two qualifies, yet the walk checks A/X/Y at depth three first and the
locator returns it, so the returned directory is not the shallowest
qualifying one. -/
theorem C4_counterexample :
    hasDazChild c4tree = false ∧
    find_daz_root c4tree = some ["A", "X", "Y"] ∧
    childrenAt c4tree ["B", "C"] = some [Entry.dir "Runtime" []] ∧
    hasDazChild [Entry.dir "Runtime" []] = true ∧
    (["B", "C"] : List String).length < (["A", "X", "Y"] : List String).length :=
  ⟨rfl, rfl, rfl, rfl, by decide⟩

theorem findSome?_qualifying (l : List (List String × Entry)) :
    l.findSome? (fun pe =>
        match pe.2 with
        | Entry.dir _ cs => if hasDazChild cs then some pe.1 else none
        | _ => none)
      = (l.find? (fun pe => isDirE pe.2 && hasDazChild (dirChildrenOf pe.2))).map Prod.fst := by
  induction l with
  | nil => rfl
  | cons pe l ih =>
    obtain ⟨p, x⟩ := pe
    cases x with
    | dir n cs =>
      by_cases h : hasDazChild cs = true
      · simp [List.findSome?_cons, List.find?_cons, isDirE, dirChildrenOf, h]
      · have h' : hasDazChild cs = false := by revert h; cases hasDazChild cs <;> simp
        simp [List.findSome?_cons, List.find?_cons, isDirE, dirChildrenOf, h', ih]
    | plainFile n => simpa [List.findSome?_cons, List.find?_cons, isDirE] using ih
    | archFile n c => simpa [List.findSome?_cons, List.find?_cons, isDirE] using ih
    | badFile n m w => simpa [List.findSome?_cons, List.find?_cons, isDirE] using ih

/-- C4 (amended): when the root itself does not match, the locator returns
the first directory in the implementation's walk order whose immediate
subdirectory names meet the content-folder set; this need not be the
shallowest qualifying directory, and a qualifying directory of strictly
smaller depth may exist. -/
theorem C4_amended_first_in_walk_order (t : List Entry)
    (h : hasDazChild t = false) :
    find_daz_root t = firstQualifyingDir t := by
  simp only [find_daz_root, h, Bool.false_eq_true, if_false, firstQualifyingDir]
  exact findSome?_qualifying (rglobPaths t)

theorem C4_witness : find_daz_root c4tree = firstQualifyingDir c4tree :=
  C4_amended_first_in_walk_order c4tree rfl

theorem hasArchDirL_cons (e : Entry) (es : List Entry) :
    hasArchDirL (e :: es) = (hasArchDirE e || hasArchDirL es) := rfl

theorem hasArchDirL_append : ∀ d l : List Entry,
    hasArchDirL (d ++ l) = (hasArchDirL d || hasArchDirL l)
  | [], l => by simp [hasArchDirL]
  | e :: es, l => by
    simp [hasArchDirL_cons, hasArchDirL_append es l, Bool.or_assoc]

theorem hasArchDir_replaceFirst (n : String) (r : Entry) :
    ∀ d : List Entry,
    (∀ e, lookupName n d = some e → hasArchDirE e = true → hasArchDirE r = true) →
    hasArchDirL d = true → hasArchDirL (replaceFirst n r d) = true := by
  intro d
  induction d with
  | nil => intro _ h; cases h
  | cons e es ih =>
    intro hr h
    by_cases he : ename e = n
    · simp only [replaceFirst, if_pos he, hasArchDirL_cons, Bool.or_eq_true] at h ⊢
      rcases h with h | h
      · exact Or.inl (hr e (by simp [lookupName, he]) h)
      · exact Or.inr h
    · simp only [replaceFirst, if_neg he, hasArchDirL_cons, Bool.or_eq_true] at h ⊢
      rcases h with h | h
      · exact Or.inl h
      · refine Or.inr (ih ?_ h)
        intro x hx
        exact hr x (by simpa [lookupName, he] using hx)

mutual

theorem hasArchDir_combineE : ∀ m x : Entry, hasArchDirE m = true →
    hasArchDirE (combineE m x) = true
  | Entry.dir n c, Entry.dir n' c', h => by
    simp only [combineE, hasArchDirE, Bool.or_eq_true] at h ⊢
    rcases h with h | h
    · exact Or.inl h
    · exact Or.inr (hasArchDir_mergeIntoL c c' h)
  | Entry.dir n c, Entry.plainFile n', h => by simpa [combineE, isDirE] using h
  | Entry.dir n c, Entry.archFile n' c', h => by simpa [combineE, isDirE] using h
  | Entry.dir n c, Entry.badFile n' m' w', h => by simpa [combineE, isDirE] using h
  | Entry.plainFile n, _, h => by simp [hasArchDirE] at h
  | Entry.archFile n c, _, h => by simp [hasArchDirE] at h
  | Entry.badFile n m w, _, h => by simp [hasArchDirE] at h

theorem hasArchDir_mergeIntoL : ∀ c s : List Entry, hasArchDirL c = true →
    hasArchDirL (mergeIntoL c s) = true
  | c, [], h => h
  | c, x :: s, h => by
    rw [mergeIntoL_cons]
    refine hasArchDir_mergeIntoL _ s ?_
    unfold upsertE
    cases hl : lookupName (ename x) c with
    | none => rw [hasArchDirL_append, h]; rfl
    | some m =>
      refine hasArchDir_replaceFirst _ _ c ?_ h
      intro e he hm
      rw [hl] at he
      cases he
      exact hasArchDir_combineE m x hm

end

theorem hasArchDir_removeFileNamed (n : String) :
    ∀ d : List Entry, hasArchDirL d = true →
    hasArchDirL (removeFileNamed n d) = true := by
  intro d
  induction d with
  | nil => intro h; cases h
  | cons e es ih =>
    intro h
    simp only [hasArchDirL_cons, Bool.or_eq_true] at h
    by_cases he : ename e = n
    · by_cases hd : isDirE e = true
      · simpa [removeFileNamed, he, hd, hasArchDirL_cons, Bool.or_eq_true] using h
      · have hfe : hasArchDirE e = false := by
          cases e <;> simp_all [isDirE, hasArchDirE]
        rcases h with h | h
        · rw [hfe] at h; cases h
        · simpa [removeFileNamed, he, hd] using h
    · rcases h with h | h
      · simp [removeFileNamed, he, hasArchDirL_cons, h]
      · simp [removeFileNamed, he, hasArchDirL_cons, ih h]

theorem hasArchDir_extract (a : Entry) (t : List Entry)
    (h : hasArchDirL t = true) : hasArchDirL (extract_archive a t).1 = true := by
  have hd : hasArchDirL ((decodeInto a t).1) = true := by
    cases a with
    | plainFile n => exact h
    | archFile n c => exact hasArchDir_mergeIntoL t c h
    | badFile n m w => exact hasArchDir_mergeIntoL t w h
    | dir n c => exact h
  simp only [extract_archive]
  split
  · exact hd
  split
  · exact hd
  split
  · exact hd
  exact h

theorem hasArchDir_stepExtract : ∀ (p : List String) (t : List Entry),
    hasArchDirL t = true → hasArchDirL (stepExtract t p) = true
  | [], t, h => h
  | n :: rest, t, h => by
    cases rest with
    | nil =>
      simp only [stepExtract]
      cases hl : lookupName n t with
      | none => exact h
      | some a => exact hasArchDir_extract a t h
    | cons r rs =>
      simp only [stepExtract]
      cases hl : lookupName n t with
      | none => exact h
      | some a =>
        cases a with
        | dir m cs =>
          refine hasArchDir_replaceFirst n _ t ?_ h
          intro e he hm
          rw [hl] at he
          cases he
          simp only [hasArchDirE, Bool.or_eq_true] at hm ⊢
          rcases hm with hm | hm
          · exact Or.inl hm
          · exact Or.inr (hasArchDir_stepExtract (r :: rs) cs hm)
        | plainFile m => exact h
        | archFile m c => exact h
        | badFile m mm w => exact h

theorem hasArchDir_removeAtPath : ∀ (p : List String) (t : List Entry),
    hasArchDirL t = true → hasArchDirL (removeAtPath t p) = true
  | [], t, h => h
  | n :: rest, t, h => by
    cases rest with
    | nil => exact hasArchDir_removeFileNamed n t h
    | cons r rs =>
      simp only [removeAtPath]
      cases hl : lookupName n t with
      | none => exact h
      | some a =>
        cases a with
        | dir m cs =>
          refine hasArchDir_replaceFirst n _ t ?_ h
          intro e he hm
          rw [hl] at he
          cases he
          simp only [hasArchDirE, Bool.or_eq_true] at hm ⊢
          rcases hm with hm | hm
          · exact Or.inl hm
          · exact Or.inr (hasArchDir_removeAtPath (r :: rs) cs hm)
        | plainFile m => exact h
        | archFile m c => exact h
        | badFile m mm w => exact h

theorem hasArchDir_stepP (t : List Entry) (p : List String)
    (h : hasArchDirL t = true) : hasArchDirL (stepP t p) = true :=
  hasArchDir_removeAtPath p _ (hasArchDir_stepExtract p t h)

theorem hasArchDir_foldl_stepP : ∀ (ps : List (List String)) (t : List Entry),
    hasArchDirL t = true → hasArchDirL (ps.foldl stepP t) = true
  | [], _, h => h
  | p :: ps, t, h => hasArchDir_foldl_stepP ps (stepP t p) (hasArchDir_stepP t p h)

theorem hasArchDir_doPass (t : List Entry) (h : hasArchDirL t = true) :
    hasArchDirL (doPass t) = true :=
  hasArchDir_foldl_stepP (scanArchives t) t h

theorem dirsPre_subset : ∀ (l : List Entry) (e : Entry), e ∈ l →
    ∀ pc, pc ∈ dirsPre e → pc ∈ dirsPreL l
  | [], _, h => by cases h
  | f :: fs, e, h => by
    intro pc hpc
    rcases List.mem_cons.1 h with rfl | h'
    · simp only [dirsPreL, List.mem_append]
      exact Or.inl hpc
    · simp only [dirsPreL, List.mem_append]
      exact Or.inr (dirsPre_subset fs e h' pc hpc)

theorem exists_arch_dir : ∀ l : List Entry, hasArchDirL l = true →
    ∃ pc ∈ preDirs l, ∃ x ∈ pc.2, isDirE x = true ∧ isArchiveName (ename x) = true
  | [], h => by cases h
  | e :: es, h => by
    rw [hasArchDirL_cons, Bool.or_eq_true] at h
    rcases h with he | hes
    · cases e with
      | dir n cs =>
        simp only [hasArchDirE, Bool.or_eq_true] at he
        rcases he with hn | hcs
        · exact ⟨([], Entry.dir n cs :: es), by simp [preDirs], Entry.dir n cs, by simp,
            rfl, by simpa [ename] using hn⟩
        · obtain ⟨pc, hpc, x, hx, hdx, hax⟩ := exists_arch_dir cs hcs
          simp only [preDirs, List.mem_cons] at hpc
          rcases hpc with rfl | hpc
          · refine ⟨([n], cs), ?_, x, hx, hdx, hax⟩
            simp only [preDirs, List.mem_cons]
            exact Or.inr (head_mem_dirsPreL (Entry.dir n cs :: es) n cs (by simp))
          · refine ⟨(n :: pc.1, pc.2), ?_, x, hx, hdx, hax⟩
            simp only [preDirs, List.mem_cons]
            refine Or.inr (dirsPre_subset (Entry.dir n cs :: es) (Entry.dir n cs) (by simp)
              (n :: pc.1, pc.2) ?_)
            simp only [dirsPre, List.mem_cons, List.mem_map]
            exact Or.inr ⟨pc, hpc, rfl⟩
      | plainFile n => simp [hasArchDirE] at he
      | archFile n c => simp [hasArchDirE] at he
      | badFile n m w => simp [hasArchDirE] at he
    · obtain ⟨pc, hpc, x, hx, hdx, hax⟩ := exists_arch_dir es hes
      simp only [preDirs, List.mem_cons] at hpc
      rcases hpc with rfl | hpc
      · exact ⟨([], e :: es), by simp [preDirs], x, by simp [hx], hdx, hax⟩
      · refine ⟨pc, ?_, x, hx, hdx, hax⟩
        simp only [preDirs, List.mem_cons, dirsPreL, List.mem_append]
        exact Or.inr (Or.inr hpc)

theorem mem_rglobPaths_intro (t : List Entry) (pc : List String × List Entry)
    (hpc : pc ∈ preDirs t) (x : Entry) (hx : x ∈ pc.2) :
    (pc.1 ++ [ename x], x) ∈ rglobPaths t := by
  simp only [rglobPaths, List.mem_flatMap]
  exact ⟨pc, hpc, List.mem_map.2 ⟨x, hx, rfl⟩⟩

theorem scanArchives_ne_nil (t : List Entry) (h : hasArchDirL t = true) :
    scanArchives t ≠ [] := by
  obtain ⟨pc, hpc, x, hx, _, hax⟩ := exists_arch_dir t h
  have hmem := mem_rglobPaths_intro t pc hpc x hx
  intro hempty
  have hall := List.filterMap_eq_nil_iff.1 hempty _ hmem
  rw [hax] at hall
  simp at hall

/-- C3: a directory whose name carries an archive extension survives every
pass unchanged, since extracting it and unlinking it both fail non-fatally,
so on any tree holding such a directory the unpack loop runs out of any
amount of fuel without terminating. -/
theorem C3_archive_named_directory_nontermination (t : List Entry)
    (h : hasArchDirL t = true) :
    ∀ fuel it, extract_all_archives_recursively fuel it t = none := by
  have main : ∀ (fuel : Nat) (u : List Entry), hasArchDirL u = true →
      ∀ it, extract_all_archives_recursively fuel it u = none := by
    intro fuel
    induction fuel with
    | zero => intro u _ it; rfl
    | succ f ih =>
      intro u hu it
      simp only [extract_all_archives_recursively, if_neg (scanArchives_ne_nil u hu)]
      exact ih (doPass u) (hasArchDir_doPass u hu) (it + 1)
  exact fun fuel it => main fuel t h it

theorem C3_witness :
    hasArchDirL [Entry.dir "x.zip" []] = true ∧
    extract_all_archives_recursively 6 0 [Entry.dir "x.zip" []] = none :=
  ⟨rfl, C3_archive_named_directory_nontermination [Entry.dir "x.zip" []] rfl 6 0⟩

theorem flatMap_shift (n : String) (X : List (List String × List Entry)) :
    ((X.map (fun pc => ((n :: pc.1 : List String), pc.2))).flatMap
        (fun pc => pc.2.map (fun e => (pc.1 ++ [ename e], e))))
      = (X.flatMap (fun pc => pc.2.map (fun e => (pc.1 ++ [ename e], e)))).map
          (fun pe => (n :: pe.1, pe.2)) := by
  induction X with
  | nil => rfl
  | cons pc X ih =>
    simp only [List.map_cons, List.flatMap_cons, List.map_append, ih, List.map_map]
    congr 1

theorem dirsPreL_singleton_dir (n : String) (l : List Entry) :
    dirsPreL [Entry.dir n l]
      = ([n], l) :: (dirsPreL l).map (fun pc => (n :: pc.1, pc.2)) := by
  simp [dirsPreL, dirsPre]

theorem rglobPaths_singleton_dir (n : String) (l : List Entry) :
    rglobPaths [Entry.dir n l]
      = ([n], Entry.dir n l) :: (rglobPaths l).map (fun pe => (n :: pe.1, pe.2)) := by
  unfold rglobPaths preDirs
  rw [dirsPreL_singleton_dir, List.flatMap_cons, List.flatMap_cons, List.flatMap_cons,
    flatMap_shift n (dirsPreL l), List.map_append, List.map_map]
  rfl

theorem scanArchives_singleton_dir (n : String) (l : List Entry)
    (h : isArchiveName n = false) :
    scanArchives [Entry.dir n l] = (scanArchives l).map (List.cons n) := by
  have hh : isArchiveName (ename (Entry.dir n l)) = false := h
  simp only [scanArchives, rglobPaths_singleton_dir, List.filterMap_cons, hh,
    Bool.false_eq_true, if_false, List.filterMap_map]
  rw [List.map_filterMap]
  have hfun : ∀ pe : List String × Entry,
      ((fun pe => if isArchiveName (ename pe.2) = true then some pe.1 else none) ∘
        (fun pe : List String × Entry => ((n :: pe.1 : List String), pe.2))) pe
      = Option.map (List.cons n)
          (if isArchiveName (ename pe.2) = true then some pe.1 else none) := by
    intro pe
    by_cases harch : isArchiveName (ename pe.2) = true <;> simp [harch]
  rw [funext hfun]

theorem wrapD_dir : ∀ (k : Nat) (Y : List Entry),
    wrapD k [Entry.dir "d" Y] = wrapD (k + 1) Y
  | 0, _ => rfl
  | k + 1, Y => by simp only [wrapD, wrapD_dir k Y]

theorem stepExtract_cons_cons (t : List Entry) (n r : String) (rs : List String) :
    stepExtract t (n :: r :: rs)
      = (match lookupName n t with
         | some (Entry.dir m cs) => replaceFirst n (Entry.dir m (stepExtract cs (r :: rs))) t
         | _ => t) := rfl

theorem removeAtPath_cons_cons (t : List Entry) (n r : String) (rs : List String) :
    removeAtPath t (n :: r :: rs)
      = (match lookupName n t with
         | some (Entry.dir m cs) => replaceFirst n (Entry.dir m (removeAtPath cs (r :: rs))) t
         | _ => t) := rfl

theorem stepExtract_wrapD (m : String) : ∀ (k : Nat) (l : List Entry),
    stepExtract (wrapD k l) (pathD k ++ [m]) = wrapD k (stepExtract l [m])
  | 0, l => rfl
  | k + 1, l => by
    have hne : ∃ r rs, pathD k ++ [m] = r :: rs := by
      cases hp : pathD k ++ [m] with
      | nil => simp at hp
      | cons r rs => exact ⟨r, rs, rfl⟩
    obtain ⟨r, rs, hrs⟩ := hne
    show stepExtract [Entry.dir "d" (wrapD k l)] ("d" :: (pathD k ++ [m])) = _
    rw [hrs, stepExtract_cons_cons]
    show [Entry.dir "d" (stepExtract (wrapD k l) (r :: rs))] = _
    rw [← hrs, stepExtract_wrapD m k l]
    rfl

theorem removeAtPath_wrapD (m : String) : ∀ (k : Nat) (l : List Entry),
    removeAtPath (wrapD k l) (pathD k ++ [m]) = wrapD k (removeAtPath l [m])
  | 0, l => rfl
  | k + 1, l => by
    have hne : ∃ r rs, pathD k ++ [m] = r :: rs := by
      cases hp : pathD k ++ [m] with
      | nil => simp at hp
      | cons r rs => exact ⟨r, rs, rfl⟩
    obtain ⟨r, rs, hrs⟩ := hne
    show removeAtPath [Entry.dir "d" (wrapD k l)] ("d" :: (pathD k ++ [m])) = _
    rw [hrs, removeAtPath_cons_cons]
    show [Entry.dir "d" (removeAtPath (wrapD k l) (r :: rs))] = _
    rw [← hrs, removeAtPath_wrapD m k l]
    rfl

theorem scanArchives_chain_succ (n : Nat) : ∀ k : Nat,
    scanArchives (wrapD k (chainT (n + 1))) = [pathD k ++ ["a.zip"]]
  | 0 => by
    show scanArchives [Entry.archFile "a.zip" [Entry.dir "d" (chainT n)]] = _
    simp [scanArchives, rglobPaths, preDirs, dirsPreL, dirsPre, ename, pathD,
      show isArchiveName "a.zip" = true from rfl]
  | k + 1 => by
    show scanArchives [Entry.dir "d" (wrapD k (chainT (n + 1)))] = _
    rw [scanArchives_singleton_dir "d" _ rfl, scanArchives_chain_succ n k]
    simp [pathD, List.replicate_succ]

theorem scanArchives_chain_zero : ∀ k : Nat, scanArchives (wrapD k (chainT 0)) = []
  | 0 => rfl
  | k + 1 => by
    show scanArchives [Entry.dir "d" (wrapD k (chainT 0))] = _
    rw [scanArchives_singleton_dir "d" _ rfl, scanArchives_chain_zero k]
    rfl

theorem unpack_succ_eq (f it : Nat) (t : List Entry) :
    extract_all_archives_recursively (f + 1) it t
      = if scanArchives t = [] then some (t, it)
        else extract_all_archives_recursively f (it + 1) (doPass t) := rfl

theorem doPass_wrapD_chain (n k : Nat) :
    doPass (wrapD k (chainT (n + 1))) = wrapD (k + 1) (chainT n) := by
  rw [doPass, scanArchives_chain_succ n k]
  show stepP (wrapD k (chainT (n + 1))) (pathD k ++ ["a.zip"]) = _
  rw [stepP, stepExtract_wrapD "a.zip" k (chainT (n + 1))]
  have hinner : stepExtract (chainT (n + 1)) ["a.zip"]
      = [Entry.archFile "a.zip" [Entry.dir "d" (chainT n)], Entry.dir "d" (chainT n)] := rfl
  rw [hinner, removeAtPath_wrapD "a.zip" k]
  have hrm : removeAtPath
      [Entry.archFile "a.zip" [Entry.dir "d" (chainT n)], Entry.dir "d" (chainT n)]
      ["a.zip"] = [Entry.dir "d" (chainT n)] := rfl
  rw [hrm, wrapD_dir k (chainT n)]

theorem chain_unpack : ∀ (n k it : Nat),
    extract_all_archives_recursively (n + 1) it (wrapD k (chainT n))
      = some (wrapD (k + n) [Entry.plainFile "readme"], it + n)
  | 0, k, it => by
    rw [unpack_succ_eq, if_pos (scanArchives_chain_zero k)]
    simp [chainT]
  | n + 1, k, it => by
    rw [unpack_succ_eq, scanArchives_chain_succ n k,
      if_neg (List.cons_ne_nil _ _), doPass_wrapD_chain n k,
      chain_unpack n (k + 1) (it + 1)]
    have h1 : k + 1 + n = k + (n + 1) := by omega
    have h2 : it + 1 + n = it + (n + 1) := by omega
    rw [h1, h2]

/-- C6: whenever the unpack loop terminates normally the final scan finds
zero archive-suffixed paths, and a chain of n nested archives is fully
flattened in exactly n passes for every n, leaving no archive file behind. -/
theorem C6_unpacker_flattens :
    (∀ (t : List Entry) (fuel it : Nat) (u : List Entry) (k : Nat),
        extract_all_archives_recursively fuel it t = some (u, k) →
          scanArchives u = []) ∧
    (∀ n : Nat, extract_all_archives_recursively (n + 1) 0 (chainT n)
        = some (wrapD n [Entry.plainFile "readme"], n)) := by
  constructor
  · intro t fuel
    induction fuel generalizing t with
    | zero => intro it u k h; cases h
    | succ f ih =>
      intro it u k h
      by_cases hs : scanArchives t = []
      · rw [unpack_succ_eq, if_pos hs] at h
        have h' := Option.some.inj h
        rw [Prod.mk.injEq] at h'
        rw [← h'.1]
        exact hs
      · rw [unpack_succ_eq, if_neg hs] at h
        exact ih (doPass t) (it + 1) u k h
  · intro n
    simpa using chain_unpack n 0 0

theorem C6_witness :
    extract_all_archives_recursively 2 0 (chainT 1)
      = some (wrapD 1 [Entry.plainFile "readme"], 1) ∧
    scanArchives (wrapD 1 [Entry.plainFile "readme"]) = [] :=
  ⟨C6_unpacker_flattens.2 1,
   C6_unpacker_flattens.1 (chainT 1) 2 0 (wrapD 1 [Entry.plainFile "readme"]) 1
     (C6_unpacker_flattens.2 1)⟩

theorem combineE_dir_dir (n n' : String) (c c' : List Entry) :
    combineE (Entry.dir n c) (Entry.dir n' c') = Entry.dir n (mergeIntoL c c') := rfl

theorem combineE_old_dir (a : Entry) (hd : isDirE a = false) (n : String)
    (c : List Entry) : combineE a (Entry.dir n c) = a := by
  cases a <;> simp_all [combineE, isDirE]

theorem combineE_dir_old (n : String) (c : List Entry) (e : Entry)
    (hd : isDirE e = false) : combineE (Entry.dir n c) e = Entry.dir n c := by
  cases e <;> simp_all [combineE, isDirE]

theorem combineE_new (a e : Entry) (ha : isDirE a = false) (he : isDirE e = false) :
    combineE a e = e := by
  cases a <;> cases e <;> simp_all [combineE, isDirE]

theorem isDirE_combineE (a e : Entry) : isDirE (combineE a e) = isDirE a := by
  cases a <;> cases e <;> simp [combineE, isDirE]

theorem ename_combineE (a e : Entry) (h : ename a = ename e) :
    ename (combineE a e) = ename a := by
  cases a <;> cases e <;> simp_all [combineE, isDirE, ename]

theorem lookupName_append (n : String) : ∀ d l : List Entry,
    lookupName n (d ++ l)
      = (match lookupName n d with
         | some e => some e
         | none => lookupName n l)
  | [], l => rfl
  | e :: es, l => by
    by_cases he : ename e = n
    · simp [lookupName, he]
    · simp [lookupName, he, lookupName_append n es l]

theorem lookupName_mem (n : String) : ∀ (l : List Entry) (e : Entry),
    lookupName n l = some e → e ∈ l ∧ ename e = n
  | [], e, h => by cases h
  | f :: fs, e, h => by
    by_cases hf : ename f = n
    · simp only [lookupName, if_pos hf] at h
      cases h
      exact ⟨by simp, hf⟩
    · simp only [lookupName, if_neg hf] at h
      obtain ⟨hm, hn⟩ := lookupName_mem n fs e h
      exact ⟨by simp [hm], hn⟩

theorem lookupName_isNone_iff (n : String) : ∀ l : List Entry,
    (lookupName n l).isNone = true ↔ n ∉ namesOf l
  | [] => by simp [lookupName, namesOf]
  | e :: es => by
    by_cases he : ename e = n
    · simp [lookupName, he, namesOf]
    · simp [lookupName, he, namesOf, lookupName_isNone_iff n es, Ne.symm he]

theorem lookupName_isSome_iff (n : String) (l : List Entry) :
    (lookupName n l).isSome = true ↔ n ∈ namesOf l := by
  rcases hl : lookupName n l with _ | e
  · simpa [hl] using (lookupName_isNone_iff n l).1 (by simp [hl])
  · simp only [Option.isSome_some, true_iff]
    exact (lookupName_mem n l e hl).2 ▸ List.mem_map_of_mem ename (lookupName_mem n l e hl).1

theorem esize_le_of_mem : ∀ (l : List Entry) (e : Entry), e ∈ l → esize e ≤ lsize l
  | [], _, h => by cases h
  | f :: fs, e, h => by
    rcases List.mem_cons.1 h with rfl | h'
    · simp [lsize]
    · have := esize_le_of_mem fs e h'
      simp [lsize]; omega

theorem names_replaceFirst (n : String) (r : Entry) (hr : ename r = n) :
    ∀ d : List Entry, namesOf (replaceFirst n r d) = namesOf d
  | [] => rfl
  | e :: es => by
    by_cases he : ename e = n
    · simp [replaceFirst, he, namesOf, hr]
    · simp [replaceFirst, he, namesOf]
      exact names_replaceFirst n r hr es

theorem replaceFirst_of_none (n : String) (r : Entry) :
    ∀ d : List Entry, lookupName n d = none → replaceFirst n r d = d
  | [], _ => rfl
  | e :: es, h => by
    by_cases he : ename e = n
    · simp [lookupName, he] at h
    · simp only [lookupName, if_neg he] at h
      simp [replaceFirst, he, replaceFirst_of_none n r es h]

theorem lookupName_replaceFirst_self (n : String) (r : Entry) (hr : ename r = n) :
    ∀ (d : List Entry) (a : Entry), lookupName n d = some a →
    lookupName n (replaceFirst n r d) = some r
  | [], a, h => by cases h
  | e :: es, a, h => by
    by_cases he : ename e = n
    · simp [replaceFirst, he, lookupName, hr]
    · simp only [lookupName, if_neg he] at h
      simp only [replaceFirst, if_neg he, lookupName, if_neg he]
      exact lookupName_replaceFirst_self n r hr es a h

theorem lookupName_replaceFirst_other (n : String) (r : Entry) (hr : ename r = n)
    (m : String) (hm : m ≠ n) :
    ∀ d : List Entry, lookupName m (replaceFirst n r d) = lookupName m d
  | [] => rfl
  | e :: es => by
    have hnm : n ≠ m := fun hh => hm hh.symm
    by_cases he : ename e = n
    · have hrm : ename r ≠ m := by rw [hr]; exact hnm
      have hem : ename e ≠ m := by rw [he]; exact hnm
      simp [replaceFirst, he, lookupName, hrm, hem, hnm]
    · by_cases hem : ename e = m
      · simp [replaceFirst, he, lookupName, hem, hm, Ne.symm hm]
      · simp [replaceFirst, he, lookupName, hem,
          lookupName_replaceFirst_other n r hr m hm es]

theorem lookupName_upsert_self (d : List Entry) (x : Entry) :
    lookupName (ename x) (upsertE d x)
      = (match lookupName (ename x) d with
         | some a => some (combineE a x)
         | none => some x) := by
  unfold upsertE
  cases hl : lookupName (ename x) d with
  | none => simp [lookupName_append, hl, lookupName]
  | some a =>
    have ha : ename a = ename x := (lookupName_mem _ d a hl).2
    exact lookupName_replaceFirst_self (ename x) (combineE a x)
      ((ename_combineE a x ha).trans ha) d a hl

theorem lookupName_upsert_other (d : List Entry) (x : Entry) (m : String)
    (hm : m ≠ ename x) : lookupName m (upsertE d x) = lookupName m d := by
  unfold upsertE
  cases hl : lookupName (ename x) d with
  | none =>
    rw [lookupName_append]
    cases hd : lookupName m d with
    | none => simp [lookupName, Ne.symm hm]
    | some e => simp
  | some a =>
    have ha : ename a = ename x := (lookupName_mem _ d a hl).2
    exact lookupName_replaceFirst_other (ename x) (combineE a x)
      ((ename_combineE a x ha).trans ha) m hm d

theorem names_upsert (d : List Entry) (x : Entry) :
    namesOf (upsertE d x)
      = if (lookupName (ename x) d).isSome then namesOf d
        else namesOf d ++ [ename x] := by
  unfold upsertE
  cases hl : lookupName (ename x) d with
  | none => simp [namesOf]
  | some a =>
    have ha : ename a = ename x := (lookupName_mem _ d a hl).2
    simp [names_replaceFirst (ename x) (combineE a x)
      ((ename_combineE a x ha).trans ha) d]

theorem wfL_parts (e : Entry) (es : List Entry) (h : wfL (e :: es) = true) :
    wfE e = true ∧ lookupName (ename e) es = none ∧ wfL es = true := by
  have h' := h
  rw [show wfL (e :: es) = (wfE e && (lookupName (ename e) es).isNone && wfL es) from rfl] at h'
  simp only [Bool.and_eq_true, Option.isNone_iff_eq_none] at h'
  exact ⟨h'.1.1, h'.1.2, h'.2⟩

theorem wfL_build (e : Entry) (es : List Entry) (h1 : wfE e = true)
    (h2 : lookupName (ename e) es = none) (h3 : wfL es = true) :
    wfL (e :: es) = true := by
  rw [show wfL (e :: es) = (wfE e && (lookupName (ename e) es).isNone && wfL es) from rfl]
  simp [h1, h2, h3]

theorem wf_of_lookup (n : String) : ∀ (l : List Entry) (e : Entry),
    wfL l = true → lookupName n l = some e → wfE e = true
  | [], e, _, h => by cases h
  | f :: fs, e, hw, h => by
    obtain ⟨hf, _, hfs⟩ := wfL_parts f fs hw
    by_cases hn : ename f = n
    · simp only [lookupName, if_pos hn] at h
      cases h
      exact hf
    · simp only [lookupName, if_neg hn] at h
      exact wf_of_lookup n fs e hfs h

theorem wfL_replaceFirst (n : String) (r : Entry) (hr : ename r = n)
    (hwfr : wfE r = true) : ∀ d : List Entry, wfL d = true →
    wfL (replaceFirst n r d) = true
  | [], h => h
  | e :: es, h => by
    obtain ⟨he, hlk, hes⟩ := wfL_parts e es h
    by_cases hen : ename e = n
    · simp only [replaceFirst, if_pos hen]
      refine wfL_build r es hwfr ?_ hes
      rw [hr, ← hen]
      exact hlk
    · simp only [replaceFirst, if_neg hen]
      refine wfL_build e _ he ?_ (wfL_replaceFirst n r hr hwfr es hes)
      rw [lookupName_replaceFirst_other n r hr (ename e) hen es]
      exact hlk

theorem wf_append_one : ∀ (d : List Entry) (x : Entry), wfL d = true →
    wfE x = true → lookupName (ename x) d = none → wfL (d ++ [x]) = true
  | [], x, _, hx, _ => by
    refine wfL_build x [] hx rfl rfl
  | e :: es, x, hd, hx, hlk => by
    obtain ⟨he, helk, hes⟩ := wfL_parts e es hd
    have hne : ename x ≠ ename e := by
      intro hh
      simp [lookupName, hh.symm] at hlk
    have hlk' : lookupName (ename x) es = none := by
      by_cases hh : ename e = ename x
      · exact absurd hh.symm hne
      · simpa [lookupName, hh] using hlk
    refine wfL_build e (es ++ [x]) he ?_ (wf_append_one es x hes hx hlk')
    rw [lookupName_append, helk]
    simp [lookupName, hne]

mutual

theorem wf_combineE : ∀ a e : Entry, wfE a = true → wfE e = true →
    wfE (combineE a e) = true
  | Entry.dir n c, Entry.dir n' c', ha, he => by
    rw [combineE_dir_dir]
    exact wf_mergeIntoL c c' ha he
  | Entry.dir n c, Entry.plainFile n', ha, he => by simpa [combineE, isDirE] using ha
  | Entry.dir n c, Entry.archFile n' c', ha, he => by simpa [combineE, isDirE] using ha
  | Entry.dir n c, Entry.badFile n' m' w', ha, he => by simpa [combineE, isDirE] using ha
  | Entry.plainFile n, e, ha, he => by
    cases e <;> simp_all [combineE, isDirE]
  | Entry.archFile n c, e, ha, he => by
    cases e <;> simp_all [combineE, isDirE]
  | Entry.badFile n m w, e, ha, he => by
    cases e <;> simp_all [combineE, isDirE]

theorem wf_mergeIntoL : ∀ d s : List Entry, wfL d = true → wfL s = true →
    wfL (mergeIntoL d s) = true
  | d, [], hd, _ => hd
  | d, x :: s, hd, hs => by
    obtain ⟨hx, _, hs'⟩ := wfL_parts x s hs
    rw [mergeIntoL_cons]
    refine wf_mergeIntoL _ s ?_ hs'
    unfold upsertE
    cases hl : lookupName (ename x) d with
    | none => exact wf_append_one d x hd hx hl
    | some a =>
      have ha : ename a = ename x := (lookupName_mem _ d a hl).2
      exact wfL_replaceFirst (ename x) (combineE a x)
        ((ename_combineE a x ha).trans ha)
        (wf_combineE a x (wf_of_lookup (ename x) d a hd hl) hx) d hd

end

theorem lookup_mergeIntoL : ∀ (s d : List Entry) (n : String), wfL s = true →
    lookupName n (mergeIntoL d s) = ocomb (lookupName n d) (lookupName n s)
  | [], d, n, _ => rfl
  | x :: s, d, n, hs => by
    obtain ⟨_, hlk, hs'⟩ := wfL_parts x s hs
    rw [mergeIntoL_cons, lookup_mergeIntoL s (upsertE d x) n hs']
    by_cases hn : n = ename x
    · subst hn
      rw [hlk, lookupName_upsert_self d x]
      rw [show lookupName (ename x) (x :: s) = some x from by simp [lookupName]]
      cases lookupName (ename x) d <;> rfl
    · rw [lookupName_upsert_other d x n hn]
      rw [show lookupName n (x :: s) = lookupName n s from by
        simp only [lookupName, if_neg (fun hh : ename x = n => hn hh.symm)]]

theorem mem_names_upsert_left (d : List Entry) (x : Entry) (m : String)
    (h : m ∈ namesOf d) : m ∈ namesOf (upsertE d x) := by
  rw [names_upsert]
  by_cases hl : (lookupName (ename x) d).isSome = true
  · simpa [hl] using h
  · simp only [hl, if_false, Bool.false_eq_true, List.mem_append]
    exact Or.inl h

theorem mem_names_upsert_self (d : List Entry) (x : Entry) :
    ename x ∈ namesOf (upsertE d x) := by
  rw [names_upsert]
  by_cases hl : (lookupName (ename x) d).isSome = true
  · simpa [hl] using (lookupName_isSome_iff (ename x) d).1 hl
  · simp [hl]

theorem mem_names_mergeIntoL_left : ∀ (s d : List Entry) (m : String),
    m ∈ namesOf d → m ∈ namesOf (mergeIntoL d s)
  | [], d, m, h => h
  | x :: s, d, m, h => by
    rw [mergeIntoL_cons]
    exact mem_names_mergeIntoL_left s (upsertE d x) m (mem_names_upsert_left d x m h)

theorem mem_names_mergeIntoL_right : ∀ (s d : List Entry) (m : String),
    m ∈ namesOf s → m ∈ namesOf (mergeIntoL d s)
  | [], d, m, h => by cases h
  | x :: s, d, m, h => by
    rw [mergeIntoL_cons]
    rcases List.mem_cons.1 h with rfl | h'
    · exact mem_names_mergeIntoL_left s (upsertE d x) _ (mem_names_upsert_self d x)
    · exact mem_names_mergeIntoL_right s (upsertE d x) m h'

theorem names_mergeIntoL_of_subset : ∀ (s d : List Entry),
    (∀ m ∈ namesOf s, m ∈ namesOf d) → namesOf (mergeIntoL d s) = namesOf d
  | [], d, _ => rfl
  | x :: s, d, h => by
    have hx : ename x ∈ namesOf d := h (ename x) (by simp [namesOf])
    have hup : namesOf (upsertE d x) = namesOf d := by
      rw [names_upsert, if_pos ((lookupName_isSome_iff (ename x) d).2 hx)]
    rw [mergeIntoL_cons, names_mergeIntoL_of_subset s (upsertE d x) ?_, hup]
    intro m hm
    rw [hup]
    exact h m (show m ∈ ename x :: namesOf s from List.mem_cons.2 (Or.inr hm))

theorem applyList_cons (d s : List Entry) (S : List (List Entry)) :
    applyList d (s :: S) = applyList (mergeIntoL d s) S := rfl

theorem applyList_append (d : List Entry) : ∀ S T : List (List Entry),
    applyList d (S ++ T) = applyList (applyList d S) T
  | [], _ => rfl
  | s :: S, T => by
    rw [List.cons_append, applyList_cons, applyList_cons,
      applyList_append (mergeIntoL d s) S T]

theorem wf_applyList : ∀ (S : List (List Entry)) (d : List Entry),
    wfL d = true → (∀ s ∈ S, wfL s = true) → wfL (applyList d S) = true
  | [], d, hd, _ => hd
  | s :: S, d, hd, hS => by
    rw [applyList_cons]
    exact wf_applyList S (mergeIntoL d s) (wf_mergeIntoL d s hd (hS s (by simp)))
      (fun u hu => hS u (by simp [hu]))

theorem mem_names_applyList_left : ∀ (S : List (List Entry)) (d : List Entry)
    (m : String), m ∈ namesOf d → m ∈ namesOf (applyList d S)
  | [], _, _, h => h
  | s :: S, d, m, h => by
    rw [applyList_cons]
    exact mem_names_applyList_left S _ m (mem_names_mergeIntoL_left s d m h)

theorem mem_names_applyList_right : ∀ (S : List (List Entry)) (d s : List Entry)
    (m : String), s ∈ S → m ∈ namesOf s → m ∈ namesOf (applyList d S)
  | [], _, _, _, hs, _ => by cases hs
  | u :: S, d, s, m, hs, hm => by
    rw [applyList_cons]
    rcases List.mem_cons.1 hs with rfl | hs'
    · exact mem_names_applyList_left S _ m (mem_names_mergeIntoL_right s d m hm)
    · exact mem_names_applyList_right S (mergeIntoL d u) s m hs' hm

theorem names_applyList_of_subset : ∀ (S : List (List Entry)) (d : List Entry),
    (∀ s ∈ S, ∀ m ∈ namesOf s, m ∈ namesOf d) →
    namesOf (applyList d S) = namesOf d
  | [], _, _ => rfl
  | s :: S, d, h => by
    have hs : namesOf (mergeIntoL d s) = namesOf d :=
      names_mergeIntoL_of_subset s d (h s (by simp))
    rw [applyList_cons, names_applyList_of_subset S (mergeIntoL d s) ?_, hs]
    intro u hu m hm
    rw [hs]
    exact h u (by simp [hu]) m hm

theorem lookup_applyList : ∀ (S : List (List Entry)) (d : List Entry) (n : String),
    (∀ s ∈ S, wfL s = true) →
    lookupName n (applyList d S) = ofold (lookupName n d) (S.map (lookupName n))
  | [], _, _, _ => rfl
  | s :: S, d, n, hS => by
    rw [applyList_cons, lookup_applyList S (mergeIntoL d s) n
      (fun u hu => hS u (by simp [hu]))]
    rw [lookup_mergeIntoL s d n (hS s (by simp))]
    rfl

theorem ext_of_names_lookup : ∀ L1 L2 : List Entry, wfL L1 = true →
    namesOf L1 = namesOf L2 → (∀ n, lookupName n L1 = lookupName n L2) → L1 = L2
  | [], [], _, _, _ => rfl
  | [], e :: es, _, hn, _ => by simp [namesOf] at hn
  | e :: es, [], _, hn, _ => by simp [namesOf] at hn
  | e :: es, f :: fs, hw, hn, hl => by
    obtain ⟨hwe, hlk, hwes⟩ := wfL_parts e es hw
    simp only [namesOf, List.map_cons, List.cons.injEq] at hn
    have hef : e = f := by
      have h1 := hl (ename e)
      simp only [lookupName, if_pos rfl] at h1
      rw [show (if ename f = ename e then some f else lookupName (ename e) fs)
          = some f from by rw [if_pos hn.1.symm]] at h1
      exact Option.some.inj h1
    subst hef
    have htail : es = fs := by
      refine ext_of_names_lookup es fs hwes hn.2 ?_
      intro n
      by_cases hne : ename e = n
      · subst hne
        rw [hlk]
        have h2 : ename e ∉ namesOf fs := by
          show ename e ∉ List.map ename fs
          rw [← hn.2]
          exact (lookupName_isNone_iff (ename e) es).1 (by simp [hlk])
        rcases h3 : lookupName (ename e) fs with _ | g
        · rfl
        · obtain ⟨hg, hgname⟩ := lookupName_mem (ename e) fs g h3
          exact absurd (hgname ▸ List.mem_map_of_mem ename hg) h2
      · have h4 := hl n
        simpa [lookupName, if_neg hne] using h4
    rw [htail]

theorem replaceFirst_self (n : String) : ∀ (d : List Entry) (a : Entry),
    lookupName n d = some a → replaceFirst n a d = d
  | [], a, h => by cases h
  | e :: es, a, h => by
    by_cases he : ename e = n
    · simp only [lookupName, if_pos he] at h
      cases h
      simp [replaceFirst, he]
    · simp only [lookupName, if_neg he] at h
      simp [replaceFirst, he, replaceFirst_self n es a h]

theorem lookup_self_of_wf : ∀ (l : List Entry) (a : Entry), wfL l = true →
    a ∈ l → lookupName (ename a) l = some a
  | [], a, _, h => by cases h
  | e :: es, a, hw, h => by
    obtain ⟨_, hlk, hes⟩ := wfL_parts e es hw
    rcases List.mem_cons.1 h with rfl | h'
    · simp [lookupName]
    · have hne : ename e ≠ ename a := by
        intro hh
        have : ename a ∈ namesOf es := List.mem_map_of_mem ename h'
        rw [← hh] at this
        exact absurd this ((lookupName_isNone_iff (ename e) es).1 (by simp [hlk]))
      simp only [lookupName, if_neg hne]
      exact lookup_self_of_wf es a hes h'

theorem mergeIntoL_of_ident : ∀ (c c' : List Entry),
    (∀ a ∈ c, lookupName (ename a) c' = some a ∧ combineE a a = a) →
    mergeIntoL c' c = c'
  | [], _, _ => rfl
  | x :: c, c', h => by
    obtain ⟨hlk, hcomb⟩ := h x (by simp)
    have hup : upsertE c' x = c' := by
      unfold upsertE
      rw [hlk]
      show replaceFirst (ename x) (combineE x x) c' = c'
      rw [hcomb]
      exact replaceFirst_self (ename x) c' x hlk
    rw [mergeIntoL_cons, hup]
    exact mergeIntoL_of_ident c c' (fun a ha => h a (by simp [ha]))

theorem self_absorb : ∀ N : Nat,
    (∀ a : Entry, esize a ≤ N → wfE a = true → combineE a a = a) ∧
    (∀ c : List Entry, lsize c ≤ N → wfL c = true → mergeIntoL c c = c) := by
  intro N
  induction N using Nat.strong_induction_on with
  | _ N ih =>
    have part1 : ∀ a : Entry, esize a ≤ N → wfE a = true → combineE a a = a := by
      intro a ha hw
      cases a with
      | dir n c =>
        rw [combineE_dir_dir]
        have hsz : esize (Entry.dir n c) = 1 + lsize c := rfl
        have hc : lsize c < N := by omega
        rw [(ih (lsize c) hc).2 c le_rfl hw]
      | plainFile n => simp [combineE, isDirE]
      | archFile n c => simp [combineE, isDirE]
      | badFile n m w => simp [combineE, isDirE]
    refine ⟨part1, fun c hc hw => ?_⟩
    refine mergeIntoL_of_ident c c ?_
    intro a ha
    refine ⟨lookup_self_of_wf c a hw ha, ?_⟩
    refine part1 a (le_trans (esize_le_of_mem c a ha) hc) ?_
    have : wfO (lookupName (ename a) c) = true := by
      rw [lookup_self_of_wf c a hw ha]
      exact wf_of_lookup (ename a) c a hw (lookup_self_of_wf c a hw ha)
    simpa [wfO, lookup_self_of_wf c a hw ha] using this

theorem combineE_self (a : Entry) (hw : wfE a = true) : combineE a a = a :=
  (self_absorb (esize a)).1 a le_rfl hw

theorem mergeIntoL_self (c : List Entry) (hw : wfL c = true) : mergeIntoL c c = c :=
  (self_absorb (lsize c)).2 c le_rfl hw

theorem ofold_nil (x : Option Entry) : ofold x [] = x := rfl

theorem ofold_cons (x y : Option Entry) (ys : List (Option Entry)) :
    ofold x (y :: ys) = ofold (ocomb x y) ys := rfl

theorem ofold_append (x : Option Entry) (ys zs : List (Option Entry)) :
    ofold x (ys ++ zs) = ofold (ofold x ys) zs := by
  simp [ofold, List.foldl_append]

theorem ofold_eq_none : ∀ (ys : List (Option Entry)) (x : Option Entry),
    ofold x ys = none → x = none ∧ ∀ y ∈ ys, y = none
  | [], x, h => ⟨h, by simp⟩
  | y :: ys, x, h => by
    rw [ofold_cons] at h
    obtain ⟨hc, hrest⟩ := ofold_eq_none ys (ocomb x y) h
    cases y with
    | none => exact ⟨hc, by simpa using hrest⟩
    | some e => simp [ocomb] at hc

theorem ofold_all_none : ∀ (ys : List (Option Entry)) (x : Option Entry),
    (∀ y ∈ ys, y = none) → ofold x ys = x
  | [], _, _ => rfl
  | y :: ys, x, h => by
    have hy : y = none := h y (by simp)
    subst hy
    rw [ofold_cons, ocomb]
    exact ofold_all_none ys x (fun z hz => h z (by simp [hz]))

theorem ofold_stays_file : ∀ (ys : List (Option Entry)) (e : Entry),
    isDirE e = false → ∃ e', ofold (some e) ys = some e' ∧ isDirE e' = false
  | [], e, h => ⟨e, rfl, h⟩
  | y :: ys, e, h => by
    cases y with
    | none => exact ofold_stays_file ys e h
    | some g =>
      rw [ofold_cons, ocomb]
      exact ofold_stays_file ys (combineE e g) (by rw [isDirE_combineE, h])

theorem ofold_dir : ∀ (ys : List (Option Entry)) (n : String) (c : List Entry),
    ofold (some (Entry.dir n c)) ys
      = some (Entry.dir n (applyList c (dirOptChildren ys)))
  | [], n, c => rfl
  | y :: ys, n, c => by
    cases y with
    | none =>
      rw [ofold_cons, ocomb]
      exact ofold_dir ys n c
    | some e =>
      cases e with
      | dir m cs =>
        rw [ofold_cons, ocomb, combineE_dir_dir]
        rw [ofold_dir ys n (mergeIntoL c cs)]
        rfl
      | plainFile m =>
        rw [ofold_cons, ocomb, combineE_dir_old n c (Entry.plainFile m) rfl]
        exact ofold_dir ys n c
      | archFile m cs =>
        rw [ofold_cons, ocomb, combineE_dir_old n c (Entry.archFile m cs) rfl]
        exact ofold_dir ys n c
      | badFile m mm w =>
        rw [ofold_cons, ocomb, combineE_dir_old n c (Entry.badFile m mm w) rfl]
        exact ofold_dir ys n c

theorem olsize_append : ∀ ys zs : List (Option Entry),
    olsize (ys ++ zs) = olsize ys + olsize zs
  | [], _ => by simp [olsize]
  | y :: ys, zs => by simp [olsize, olsize_append ys zs]; omega

theorem msize_append : ∀ S T : List (List Entry),
    msize (S ++ T) = msize S + msize T
  | [], _ => by simp [msize]
  | s :: S, T => by simp [msize, msize_append S T]; omega

theorem msize_dirOptChildren_le : ∀ ys : List (Option Entry),
    msize (dirOptChildren ys) ≤ olsize ys
  | [] => le_refl 0
  | none :: ys => by
    have := msize_dirOptChildren_le ys
    simp [dirOptChildren, olsize]; omega
  | some (Entry.plainFile n) :: ys => by
    have := msize_dirOptChildren_le ys
    simp [dirOptChildren, olsize]; omega
  | some (Entry.archFile n c) :: ys => by
    have := msize_dirOptChildren_le ys
    simp [dirOptChildren, olsize]; omega
  | some (Entry.badFile n m w) :: ys => by
    have := msize_dirOptChildren_le ys
    simp [dirOptChildren, olsize]; omega
  | some (Entry.dir n c) :: ys => by
    have := msize_dirOptChildren_le ys
    simp [dirOptChildren, olsize, msize, osize, esize]; omega

theorem osize_lookup_le (n : String) (s : List Entry) :
    osize (lookupName n s) ≤ lsize s := by
  cases hl : lookupName n s with
  | none => simp [osize]
  | some e =>
    have := esize_le_of_mem s e (lookupName_mem n s e hl).1
    simpa [osize] using this

theorem olsize_map_lookup_le (n : String) : ∀ S : List (List Entry),
    olsize (S.map (lookupName n)) ≤ msize S
  | [] => le_refl 0
  | s :: S => by
    have h1 := osize_lookup_le n s
    have h2 := olsize_map_lookup_le n S
    simp [olsize, msize]; omega

theorem wfO_ocomb (x y : Option Entry) (hx : wfO x = true) (hy : wfO y = true) :
    wfO (ocomb x y) = true := by
  cases y with
  | none => exact hx
  | some e =>
    cases x with
    | none => exact hy
    | some a => simpa [ocomb, wfO] using wf_combineE a e hx hy

theorem wfO_ofold : ∀ (ys : List (Option Entry)) (x : Option Entry),
    wfO x = true → (∀ y ∈ ys, wfO y = true) → wfO (ofold x ys) = true
  | [], _, hx, _ => hx
  | y :: ys, x, hx, hys => by
    rw [ofold_cons]
    exact wfO_ofold ys (ocomb x y) (wfO_ocomb x y hx (hys y (by simp)))
      (fun z hz => hys z (by simp [hz]))

theorem wf_dirOptChildren : ∀ ys : List (Option Entry),
    (∀ y ∈ ys, wfO y = true) → ∀ cs ∈ dirOptChildren ys, wfL cs = true
  | [], _, cs, h => by cases h
  | none :: ys, hys, cs, h =>
    wf_dirOptChildren ys (fun z hz => hys z (by simp [hz])) cs h
  | some (Entry.plainFile n) :: ys, hys, cs, h =>
    wf_dirOptChildren ys (fun z hz => hys z (by simp [hz])) cs h
  | some (Entry.archFile n c) :: ys, hys, cs, h =>
    wf_dirOptChildren ys (fun z hz => hys z (by simp [hz])) cs h
  | some (Entry.badFile n m w) :: ys, hys, cs, h =>
    wf_dirOptChildren ys (fun z hz => hys z (by simp [hz])) cs h
  | some (Entry.dir n c) :: ys, hys, cs, h => by
    rcases List.mem_cons.1 h with rfl | h'
    · simpa [wfO, wfE] using hys (some (Entry.dir n cs)) (by simp)
    · exact wf_dirOptChildren ys (fun z hz => hys z (by simp [hz])) cs h'

theorem wfO_lookup (n : String) (d : List Entry) (hd : wfL d = true) :
    wfO (lookupName n d) = true := by
  cases hl : lookupName n d with
  | none => rfl
  | some e => simpa [wfO] using wf_of_lookup n d e hd hl

theorem combineE_mixed_new (a e : Entry) (ha : isDirE a = false)
    (he : isDirE e = false) : combineE a e = e :=
  combineE_new a e ha he

theorem replay_main : ∀ N : Nat,
    (∀ ys : List (Option Entry), olsize ys ≤ N →
      ∀ x : Option Entry, wfO x = true → (∀ y ∈ ys, wfO y = true) →
        ofold (ofold x ys) ys = ofold x ys) ∧
    (∀ S : List (List Entry), msize S ≤ N →
      ∀ d : List Entry, wfL d = true → (∀ s ∈ S, wfL s = true) →
        applyList (applyList d S) S = applyList d S) := by
  intro N
  induction N using Nat.strong_induction_on with
  | _ N ih =>
    have pr : ∀ ys : List (Option Entry), olsize ys ≤ N →
        ∀ x : Option Entry, wfO x = true → (∀ y ∈ ys, wfO y = true) →
          ofold (ofold x ys) ys = ofold x ys := by
      intro ys hsz x hx hys
      rcases List.eq_nil_or_concat ys with rfl | ⟨zs, y, rfl⟩
      · rfl
      · rw [List.concat_eq_append] at hsz hys ⊢
        have e0 : olsize (zs ++ [y]) = olsize zs + (1 + osize y) := by
          rw [olsize_append]; simp [olsize]
        have hlt1 : olsize zs < N := by omega
        have hwz : ∀ z ∈ zs, wfO z = true := fun z hz => hys z (by simp [hz])
        have hwy : wfO y = true := hys y (by simp)
        have hIH : ofold (ofold x zs) zs = ofold x zs :=
          (ih (olsize zs) hlt1).1 zs le_rfl x hx hwz
        rw [ofold_append x zs [y], ofold_append (ofold (ofold x zs) [y]) zs [y]]
        show ocomb (ofold (ocomb (ofold x zs) y) zs) y = ocomb (ofold x zs) y
        have fileCase : ∀ e : Entry, isDirE e = false →
            ocomb (ofold (ocomb (ofold x zs) (some e)) zs) (some e)
              = ocomb (ofold x zs) (some e) := by
          intro e hfe
          rcases hAv : ofold x zs with _ | a
          · show ocomb (ofold (some e) zs) (some e) = some e
            obtain ⟨e', heq, he'⟩ := ofold_stays_file zs e hfe
            rw [heq]
            show some (combineE e' e) = some e
            rw [combineE_new e' e he' hfe]
          · by_cases hda : isDirE a = true
            · rw [hAv] at hIH
              have hce : combineE a e = a := by
                cases a <;> cases e <;> simp_all [combineE, isDirE]
              show ocomb (ofold (some (combineE a e)) zs) (some e)
                  = some (combineE a e)
              rw [hce, hIH]
              show some (combineE a e) = some a
              rw [hce]
            · have hfa : isDirE a = false := by
                revert hda; cases isDirE a <;> simp
              show ocomb (ofold (some (combineE a e)) zs) (some e)
                  = some (combineE a e)
              rw [combineE_new a e hfa hfe]
              obtain ⟨e', heq, he'⟩ := ofold_stays_file zs e hfe
              rw [heq]
              show some (combineE e' e) = some e
              rw [combineE_new e' e he' hfe]
        cases y with
        | none =>
          show ocomb (ofold (ofold x zs) zs) none = ofold x zs
          rw [hIH]
          rfl
        | some e =>
          cases e with
          | plainFile en => exact fileCase (Entry.plainFile en) rfl
          | archFile en ec => exact fileCase (Entry.archFile en ec) rfl
          | badFile en em ew => exact fileCase (Entry.badFile en em ew) rfl
          | dir en ec =>
            have hwec : wfL ec = true := hwy
            rcases hAv : ofold x zs with _ | a
            · obtain ⟨hxnone, hzs⟩ := ofold_eq_none zs x hAv
              show ocomb (ofold (some (Entry.dir en ec)) zs) (some (Entry.dir en ec))
                  = some (Entry.dir en ec)
              rw [ofold_all_none zs _ hzs]
              show some (combineE (Entry.dir en ec) (Entry.dir en ec))
                  = some (Entry.dir en ec)
              rw [combineE_self (Entry.dir en ec) hwec]
            · cases a with
              | plainFile an =>
                rw [hAv] at hIH
                show ocomb (ofold (some (combineE (Entry.plainFile an) (Entry.dir en ec))) zs)
                    (some (Entry.dir en ec))
                    = some (combineE (Entry.plainFile an) (Entry.dir en ec))
                rw [combineE_old_dir (Entry.plainFile an) rfl en ec, hIH]
                show some (combineE (Entry.plainFile an) (Entry.dir en ec))
                    = some (Entry.plainFile an)
                rw [combineE_old_dir (Entry.plainFile an) rfl en ec]
              | archFile an acs =>
                rw [hAv] at hIH
                show ocomb (ofold (some (combineE (Entry.archFile an acs) (Entry.dir en ec))) zs)
                    (some (Entry.dir en ec))
                    = some (combineE (Entry.archFile an acs) (Entry.dir en ec))
                rw [combineE_old_dir (Entry.archFile an acs) rfl en ec, hIH]
                show some (combineE (Entry.archFile an acs) (Entry.dir en ec))
                    = some (Entry.archFile an acs)
                rw [combineE_old_dir (Entry.archFile an acs) rfl en ec]
              | badFile an am aw =>
                rw [hAv] at hIH
                show ocomb (ofold (some (combineE (Entry.badFile an am aw) (Entry.dir en ec))) zs)
                    (some (Entry.dir en ec))
                    = some (combineE (Entry.badFile an am aw) (Entry.dir en ec))
                rw [combineE_old_dir (Entry.badFile an am aw) rfl en ec, hIH]
                show some (combineE (Entry.badFile an am aw) (Entry.dir en ec))
                    = some (Entry.badFile an am aw)
                rw [combineE_old_dir (Entry.badFile an am aw) rfl en ec]
              | dir an ac =>
                rw [hAv] at hIH
                rw [ofold_dir zs an ac] at hIH
                have hstar : applyList ac (dirOptChildren zs) = ac := by
                  have hinj := Option.some.inj hIH
                  injection hinj with h1 h2
                have hwac : wfL ac = true := by
                  have hwA := wfO_ofold zs x hx hwz
                  rw [hAv] at hwA
                  exact hwA
                have e2 : msize (dirOptChildren zs ++ [ec])
                    = msize (dirOptChildren zs) + (1 + lsize ec) := by
                  rw [msize_append]; simp [msize]
                have e3 := msize_dirOptChildren_le zs
                have e4 : osize (some (Entry.dir en ec)) = 1 + lsize ec := rfl
                have hlt2 : msize (dirOptChildren zs ++ [ec]) < N := by omega
                have hwfS : ∀ s ∈ dirOptChildren zs ++ [ec], wfL s = true := by
                  intro s hs
                  rcases List.mem_append.1 hs with hs' | hs'
                  · exact wf_dirOptChildren zs hwz s hs'
                  · rcases List.mem_singleton.1 hs' with rfl
                    exact hwec
                have hL := (ih (msize (dirOptChildren zs ++ [ec])) hlt2).2
                  (dirOptChildren zs ++ [ec]) le_rfl ac hwac hwfS
                have hR : applyList ac (dirOptChildren zs ++ [ec]) = mergeIntoL ac ec := by
                  rw [applyList_append, hstar]
                  rfl
                rw [hR, applyList_append] at hL
                have hfinal : mergeIntoL (applyList (mergeIntoL ac ec) (dirOptChildren zs)) ec
                    = mergeIntoL ac ec := hL
                show ocomb (ofold (some (Entry.dir an (mergeIntoL ac ec))) zs)
                    (some (Entry.dir en ec))
                    = some (Entry.dir an (mergeIntoL ac ec))
                rw [ofold_dir zs an (mergeIntoL ac ec)]
                show some (Entry.dir an
                    (mergeIntoL (applyList (mergeIntoL ac ec) (dirOptChildren zs)) ec))
                    = some (Entry.dir an (mergeIntoL ac ec))
                rw [hfinal]
    refine ⟨pr, ?_⟩
    intro S hsz d hd hS
    refine ext_of_names_lookup _ _
      (wf_applyList S (applyList d S) (wf_applyList S d hd hS) hS) ?_ ?_
    · exact names_applyList_of_subset S (applyList d S)
        (fun s hs m hm => mem_names_applyList_right S d s m hs hm)
    · intro n
      rw [lookup_applyList S (applyList d S) n hS, lookup_applyList S d n hS]
      refine pr (S.map (lookupName n)) (le_trans (olsize_map_lookup_le n S) hsz)
        (lookupName n d) (wfO_lookup n d hd) ?_
      intro y hy
      obtain ⟨s, hs, rfl⟩ := List.mem_map.1 hy
      exact wfO_lookup n s (hS s hs)

theorem applyList_replay (S : List (List Entry)) (d : List Entry)
    (hd : wfL d = true) (hS : ∀ s ∈ S, wfL s = true) :
    applyList (applyList d S) S = applyList d S :=
  (replay_main (msize S)).2 S le_rfl d hd hS

theorem copy_daz_root_eq : ∀ (src out : List Entry) (ip : Bool),
    copy_daz_root src out ip = mergeIntoL out (src.filter (keepP ip))
  | [], out, ip => rfl
  | x :: s, out, ip => by
    by_cases h : (!ip && PROMO_EXTS.contains (lowSuffix (ename x))) = true
    · have hk : keepP ip x = false := by
        revert h; unfold keepP; cases ip <;> simp
      simp only [copy_daz_root, List.foldl_cons, h, if_pos rfl, List.filter_cons, hk,
        Bool.false_eq_true, if_neg (Bool.false_ne_true)]
      exact copy_daz_root_eq s out ip
    · have hk : keepP ip x = true := by
        revert h; unfold keepP; cases ip <;> simp
      have h' : (!ip && PROMO_EXTS.contains (lowSuffix (ename x))) = false := by
        revert h; cases ip <;> simp
      simp only [copy_daz_root, List.foldl_cons, h', List.filter_cons, hk,
        Bool.false_eq_true, if_false, if_true]
      rw [mergeIntoL_cons]
      exact copy_daz_root_eq s (upsertE out x) ip

theorem mergeIntoL_disjoint : ∀ (s d : List Entry), wfL s = true →
    (∀ m ∈ namesOf s, lookupName m d = none) → mergeIntoL d s = d ++ s
  | [], d, _, _ => by simp [mergeIntoL_nil]
  | x :: s, d, hs, hdis => by
    obtain ⟨_, hlk, hs'⟩ := wfL_parts x s hs
    have hx : lookupName (ename x) d = none := hdis (ename x) (by simp [namesOf])
    rw [mergeIntoL_cons]
    have hup : upsertE d x = d ++ [x] := by unfold upsertE; rw [hx]
    rw [hup, mergeIntoL_disjoint s (d ++ [x]) hs' ?_, List.append_assoc]
    · rfl
    intro m hm
    rw [lookupName_append]
    rw [hdis m (by simp [namesOf]; simp [namesOf] at hm; exact Or.inr hm)]
    have : ename x ≠ m := by
      intro hh
      rw [hh] at hlk
      exact absurd ((lookupName_isNone_iff m s).1 (by simp [hlk])) (by simpa using hm)
    simp [lookupName, this]

theorem mergeIntoL_nil_left (s : List Entry) (hs : wfL s = true) :
    mergeIntoL [] s = s := by
  simpa using mergeIntoL_disjoint s [] hs (fun m _ => rfl)

theorem lookup_filter_none (n : String) (p : Entry → Bool) : ∀ l : List Entry,
    lookupName n l = none → lookupName n (l.filter p) = none
  | [], _ => rfl
  | e :: es, h => by
    by_cases he : ename e = n
    · simp [lookupName, he] at h
    · simp only [lookupName, if_neg he] at h
      by_cases hp : p e = true
      · simp [List.filter_cons, hp, lookupName, he, lookup_filter_none n p es h]
      · simp only [List.filter_cons, hp]
        simp only [Bool.false_eq_true, if_false]
        exact lookup_filter_none n p es h

theorem wf_filter (p : Entry → Bool) : ∀ l : List Entry, wfL l = true →
    wfL (l.filter p) = true
  | [], _ => rfl
  | e :: es, h => by
    obtain ⟨he, hlk, hes⟩ := wfL_parts e es h
    by_cases hp : p e = true
    · simp only [List.filter_cons, hp, if_pos rfl]
      exact wfL_build e _ he (lookup_filter_none (ename e) p es hlk) (wf_filter p es hes)
    · simp only [List.filter_cons, hp, Bool.false_eq_true, if_false]
      exact wf_filter p es hes

theorem wf_extract (a : Entry) (t : List Entry) (ha : wfE a = true)
    (ht : wfL t = true) : wfL (extract_archive a t).1 = true := by
  have hd : wfL ((decodeInto a t).1) = true := by
    cases a with
    | plainFile n => exact ht
    | archFile n c => exact wf_mergeIntoL t c ht ha
    | badFile n m w => exact wf_mergeIntoL t w ht ha
    | dir n c => exact ht
  simp only [extract_archive]
  split
  · exact hd
  split
  · exact hd
  split
  · exact hd
  exact ht

theorem lookup_removeFileNamed_none (n m : String) : ∀ l : List Entry,
    lookupName m l = none → lookupName m (removeFileNamed n l) = none
  | [], _ => rfl
  | e :: es, h => by
    by_cases he : ename e = m
    · simp [lookupName, he] at h
    · simp only [lookupName, if_neg he] at h
      by_cases hn : ename e = n
      · have hnm : ¬ n = m := fun hh => he (hn.trans hh)
        by_cases hd : isDirE e = true
        · simp [removeFileNamed, hn, hd, lookupName, he, h, hnm]
        · simp [removeFileNamed, hn, hd, h]
      · simp [removeFileNamed, hn, lookupName, he,
          lookup_removeFileNamed_none n m es h]

theorem wf_removeFileNamed (n : String) : ∀ l : List Entry, wfL l = true →
    wfL (removeFileNamed n l) = true
  | [], _ => rfl
  | e :: es, h => by
    obtain ⟨he, hlk, hes⟩ := wfL_parts e es h
    by_cases hn : ename e = n
    · by_cases hd : isDirE e = true
      · simpa [removeFileNamed, hn, hd] using h
      · simp only [removeFileNamed, if_pos hn, hd, Bool.false_eq_true, if_false]
        exact hes
    · simp only [removeFileNamed, if_neg hn]
      exact wfL_build e _ he (lookup_removeFileNamed_none n (ename e) es hlk)
        (wf_removeFileNamed n es hes)

theorem wf_stepExtract : ∀ (p : List String) (t : List Entry), wfL t = true →
    wfL (stepExtract t p) = true
  | [], _, h => h
  | n :: rest, t, h => by
    cases rest with
    | nil =>
      simp only [stepExtract]
      cases hl : lookupName n t with
      | none => exact h
      | some a => exact wf_extract a t (wf_of_lookup n t a h hl) h
    | cons r rs =>
      simp only [stepExtract]
      cases hl : lookupName n t with
      | none => exact h
      | some a =>
        cases a with
        | dir m cs =>
          have hm : m = n := (lookupName_mem n t _ hl).2
          have hwcs : wfL cs = true := wf_of_lookup n t _ h hl
          exact wfL_replaceFirst n (Entry.dir m (stepExtract cs (r :: rs))) hm
            (wf_stepExtract (r :: rs) cs hwcs) t h
        | plainFile m => exact h
        | archFile m c => exact h
        | badFile m mm w => exact h

theorem wf_removeAtPath : ∀ (p : List String) (t : List Entry), wfL t = true →
    wfL (removeAtPath t p) = true
  | [], _, h => h
  | n :: rest, t, h => by
    cases rest with
    | nil => exact wf_removeFileNamed n t h
    | cons r rs =>
      simp only [removeAtPath]
      cases hl : lookupName n t with
      | none => exact h
      | some a =>
        cases a with
        | dir m cs =>
          have hm : m = n := (lookupName_mem n t _ hl).2
          have hwcs : wfL cs = true := wf_of_lookup n t _ h hl
          exact wfL_replaceFirst n (Entry.dir m (removeAtPath cs (r :: rs))) hm
            (wf_removeAtPath (r :: rs) cs hwcs) t h
        | plainFile m => exact h
        | archFile m c => exact h
        | badFile m mm w => exact h

theorem wf_stepP (t : List Entry) (p : List String) (h : wfL t = true) :
    wfL (stepP t p) = true :=
  wf_removeAtPath p _ (wf_stepExtract p t h)

theorem wf_foldl_stepP : ∀ (ps : List (List String)) (t : List Entry),
    wfL t = true → wfL (ps.foldl stepP t) = true
  | [], _, h => h
  | p :: ps, t, h => wf_foldl_stepP ps (stepP t p) (wf_stepP t p h)

theorem wf_unpack : ∀ (fuel it : Nat) (t u : List Entry) (k : Nat),
    wfL t = true → extract_all_archives_recursively fuel it t = some (u, k) →
    wfL u = true
  | 0, _, _, _, _, _, h => by cases h
  | fuel + 1, it, t, u, k, hw, h => by
    by_cases hs : scanArchives t = []
    · rw [unpack_succ_eq, if_pos hs] at h
      have h' := Option.some.inj h
      rw [Prod.mk.injEq] at h'
      rw [← h'.1]
      exact hw
    · rw [unpack_succ_eq, if_neg hs] at h
      exact wf_unpack fuel (it + 1) (doPass t) u k
        (wf_foldl_stepP (scanArchives t) t hw) h

theorem wf_childrenAt : ∀ (p : List String) (t : List Entry) (cs : List Entry),
    wfL t = true → childrenAt t p = some cs → wfL cs = true
  | [], t, cs, hw, h => by
    cases h
    exact hw
  | n :: rest, t, cs, hw, h => by
    simp only [childrenAt] at h
    cases hl : lookupName n t with
    | none => rw [hl] at h; cases h
    | some a =>
      rw [hl] at h
      cases a with
      | dir m cs' =>
        exact wf_childrenAt rest cs' cs (wf_of_lookup n t _ hw hl) h
      | plainFile m => cases h
      | archFile m c => cases h
      | badFile m mm w => cases h

theorem copyFinalize_merge (out items : List Entry) (ip : Bool) (stem : String)
    (hwK : wfL (items.filter (keepP ip)) = true) :
    copyFinalize out items ip true stem
      = mergeIntoL out [Entry.dir "Content" (items.filter (keepP ip))] := by
  have hcopy : ∀ d : List Entry, copy_daz_root items d ip
      = mergeIntoL d (items.filter (keepP ip)) := fun d => copy_daz_root_eq items d ip
  show putDirChild out "Content" (copy_daz_root items (childListOf out "Content") ip) = _
  have hrhs : mergeIntoL out [Entry.dir "Content" (items.filter (keepP ip))]
      = upsertE out (Entry.dir "Content" (items.filter (keepP ip))) := rfl
  rw [hrhs]
  unfold putDirChild childListOf upsertE
  simp only [ename]
  cases hlk : lookupName "Content" out with
  | none =>
    simp only [hlk]
    rw [hcopy, mergeIntoL_nil_left _ hwK]
  | some e =>
    cases e with
    | dir cn cs =>
      have hcn : cn = "Content" := (lookupName_mem "Content" out _ hlk).2
      subst hcn
      simp only [hlk]
      rw [hcopy, combineE_dir_dir]
    | plainFile fn =>
      have hfn : fn = "Content" := (lookupName_mem "Content" out _ hlk).2
      subst hfn
      simp only [hlk]
      rw [show combineE (Entry.plainFile "Content")
          (Entry.dir "Content" (items.filter (keepP ip))) = Entry.plainFile "Content" from
        combineE_old_dir (Entry.plainFile "Content") rfl _ _]
      rw [replaceFirst_self "Content" out _ hlk]
    | archFile fn fc =>
      have hfn : fn = "Content" := (lookupName_mem "Content" out _ hlk).2
      subst hfn
      simp only [hlk]
      rw [show combineE (Entry.archFile "Content" fc)
          (Entry.dir "Content" (items.filter (keepP ip))) = Entry.archFile "Content" fc from
        combineE_old_dir (Entry.archFile "Content" fc) rfl _ _]
      rw [replaceFirst_self "Content" out _ hlk]
    | badFile fn fm fw =>
      have hfn : fn = "Content" := (lookupName_mem "Content" out _ hlk).2
      subst hfn
      simp only [hlk]
      rw [show combineE (Entry.badFile "Content" fm fw)
          (Entry.dir "Content" (items.filter (keepP ip))) = Entry.badFile "Content" fm fw from
        combineE_old_dir (Entry.badFile "Content" fm fw) rfl _ _]
      rw [replaceFirst_self "Content" out _ hlk]

theorem process_merge_noroot (fuel : Nat) (a : Entry) (ip kt : Bool)
    (out u : List Entry) (it : Nat)
    (hu : extract_all_archives_recursively fuel 0 ((extract_archive a []).1) = some (u, it))
    (hn : find_daz_root u = none) :
    process_archive fuel a ip kt true out = some (out, if kt then [u] else []) := by
  simp [process_archive, hu, hn]

theorem process_merge_found (fuel : Nat) (a : Entry) (ip kt : Bool)
    (out u : List Entry) (it : Nat) (r : List String)
    (hu : extract_all_archives_recursively fuel 0 ((extract_archive a []).1) = some (u, it))
    (hr : find_daz_root u = some r)
    (hwK : wfL (((childrenAt u r).getD []).filter (keepP ip)) = true) :
    process_archive fuel a ip kt true out
      = some (applyList out (List.replicate 3
            [Entry.dir "Content" (((childrenAt u r).getD []).filter (keepP ip))]),
          ((if kt then [u] else []) ++ (if kt then [u] else [])) ++ (if kt then [u] else [])) := by
  simp only [process_archive, hu, hr]
  rw [copyFinalize_merge out _ ip _ hwK, copyFinalize_merge _ _ ip _ hwK,
    copyFinalize_merge _ _ ip _ hwK]
  rfl

theorem runArchives_merge_sources : ∀ (archs : List Entry) (fuel : Nat) (ip kt : Bool)
    (out out1 : List Entry), (∀ a ∈ archs, wfE a = true) →
    runArchives fuel ip kt true archs out = some out1 →
    ∃ S : List (List Entry), (∀ s ∈ S, wfL s = true) ∧ out1 = applyList out S ∧
      (∀ out' : List Entry, runArchives fuel ip kt true archs out' = some (applyList out' S))
  | [], fuel, ip, kt, out, out1, _, h => by
    have hh : out = out1 := Option.some.inj h
    subst hh
    exact ⟨[], by simp, rfl, fun _ => rfl⟩
  | a :: rest, fuel, ip, kt, out, out1, hwa, h => by
    cases hu : extract_all_archives_recursively fuel 0 ((extract_archive a []).1) with
    | none =>
      have hnone : process_archive fuel a ip kt true out = none := by
        simp [process_archive, hu]
      simp only [runArchives, hnone] at h
      cases h
    | some p =>
      obtain ⟨u, it⟩ := p
      cases hr : find_daz_root u with
      | none =>
        simp only [runArchives, process_merge_noroot fuel a ip kt out u it hu hr] at h
        obtain ⟨S, hwS, hout1, hgen⟩ := runArchives_merge_sources rest fuel ip kt out out1
          (fun b hb => hwa b (by simp [hb])) h
        refine ⟨S, hwS, hout1, fun out' => ?_⟩
        simp only [runArchives, process_merge_noroot fuel a ip kt out' u it hu hr]
        exact hgen out'
      | some r =>
        have hw0 : wfL ((extract_archive a []).1) = true :=
          wf_extract a [] (hwa a (by simp)) rfl
        have hwu : wfL u = true := wf_unpack fuel 0 _ u it hw0 hu
        have hitems : wfL ((childrenAt u r).getD []) = true := by
          cases hc : childrenAt u r with
          | none => rfl
          | some cs => exact wf_childrenAt r u cs hwu hc
        have hwK := wf_filter (keepP ip) _ hitems
        simp only [runArchives, process_merge_found fuel a ip kt out u it r hu hr hwK] at h
        obtain ⟨S, hwS, hout1, hgen⟩ := runArchives_merge_sources rest fuel ip kt
          (applyList out (List.replicate 3
            [Entry.dir "Content" (((childrenAt u r).getD []).filter (keepP ip))])) out1
          (fun b hb => hwa b (by simp [hb])) h
        refine ⟨List.replicate 3
          [Entry.dir "Content" (((childrenAt u r).getD []).filter (keepP ip))] ++ S,
          ?_, ?_, ?_⟩
        · intro s hs
          rcases List.mem_append.1 hs with hs' | hs'
          · rcases List.eq_of_mem_replicate hs' with rfl
            exact wfL_build _ [] hwK rfl rfl
          · exact hwS s hs'
        · rw [hout1, applyList_append]
        · intro out'
          simp only [runArchives, process_merge_found fuel a ip kt out' u it r hu hr hwK]
          rw [applyList_append]
          exact hgen _

/-- C10: in merge mode a second run of the whole pipeline over the same
input directory leaves the output directory, and with it the shared Content
tree, exactly as the first run left it: every copy overwrites same-named
files and merges same-named directories, so repetition changes nothing. -/
theorem C10_merge_idempotent (fuel : Nat) (input out0 out1 : List Entry) (ip kt : Bool)
    (hw0 : wfL out0 = true) (hwi : ∀ e ∈ input, wfE e = true)
    (h1 : main_run fuel input out0 ip kt true = some out1) :
    main_run fuel input out1 ip kt true = some out1 := by
  unfold main_run at h1 ⊢
  obtain ⟨S, hwS, hout1, hgen⟩ := runArchives_merge_sources _ fuel ip kt out0 out1
    (fun a ha => hwi a (List.mem_of_mem_filter ha)) h1
  rw [hgen out1, hout1, applyList_replay S out0 hw0 hwS]

theorem C10_witness :
    main_run 3
        [Entry.archFile "a.zip" [Entry.dir "Runtime" [Entry.plainFile "f.obj"]],
         Entry.archFile "b.zip" [Entry.dir "People" [Entry.plainFile "g.duf"],
           Entry.plainFile "promo.jpg"]]
        [] false false true
      = some [Entry.dir "Content" [Entry.dir "Runtime" [Entry.plainFile "f.obj"],
          Entry.dir "People" [Entry.plainFile "g.duf"]]] ∧
    main_run 3
        [Entry.archFile "a.zip" [Entry.dir "Runtime" [Entry.plainFile "f.obj"]],
         Entry.archFile "b.zip" [Entry.dir "People" [Entry.plainFile "g.duf"],
           Entry.plainFile "promo.jpg"]]
        [Entry.dir "Content" [Entry.dir "Runtime" [Entry.plainFile "f.obj"],
          Entry.dir "People" [Entry.plainFile "g.duf"]]] false false true
      = some [Entry.dir "Content" [Entry.dir "Runtime" [Entry.plainFile "f.obj"],
          Entry.dir "People" [Entry.plainFile "g.duf"]]] :=
  ⟨rfl,
   C10_merge_idempotent 3
     [Entry.archFile "a.zip" [Entry.dir "Runtime" [Entry.plainFile "f.obj"]],
      Entry.archFile "b.zip" [Entry.dir "People" [Entry.plainFile "g.duf"],
        Entry.plainFile "promo.jpg"]]
     []
     [Entry.dir "Content" [Entry.dir "Runtime" [Entry.plainFile "f.obj"],
       Entry.dir "People" [Entry.plainFile "g.duf"]]]
     false false rfl
     (fun e he => by
       rcases List.mem_cons.1 he with rfl | he'
       · rfl
       rcases List.mem_cons.1 he' with rfl | he''
       · rfl
       cases he'')
     rfl⟩
